import Mathlib

/-
Verification development for the Composition-Framework scene-graph library
(`composable.h`, `transform.h`, `transform.cpp`).

The C++ heap of `std::shared_ptr<Node>` objects is embedded as an explicit
store mapping node identifiers (`Nat`) to `Node` records.  Weak pointers
(`Node::parent`, `Component::owner`) are `Option Nat` values: `none` models an
empty `weak_ptr`, and an identifier that is absent from the store models an
expired one (`lock()` fails).  `float` scalars are modelled as rationals: every
arithmetic expression in the source is a single add or multiply per component,
translated verbatim.  Fallible operations (JSON field access, fuel-bounded
recursion over the parent chain or the child tree) return `Option`.

One genuine C++ semantic point is modelled explicitly and is load-bearing for
several claims: `Node::Node` calls `AddComponent<Transform>()`, and
`AddComponent` does `component->SetOwner(weak_from_this())`.  Inside the
constructor of a class deriving `std::enable_shared_from_this`, the internal
weak reference has not been seeded yet (that happens only when the first
`shared_ptr` takes ownership, after construction), so `weak_from_this()`
returns an EMPTY `weak_ptr`.  Hence the default Transform of every node built
by the public construction API has an empty owner reference forever; only a
Transform re-added later via `AddComponent<Transform>()` on an already shared
node gets a working owner.
-/

namespace Composable

/-- Scalar component-wise 3-vector, `Transform::Vec3` (float fields modelled
as rationals). -/
structure Vec3 where
  x : ℚ
  y : ℚ
  z : ℚ
deriving DecidableEq, Repr

/-- Component-wise vector addition, as written out in
`Transform::UpdateWorldTransform`. -/
def vadd (a b : Vec3) : Vec3 := ⟨a.x + b.x, a.y + b.y, a.z + b.z⟩

/-- Component-wise vector product, as written out in
`Transform::UpdateWorldTransform`. -/
def vmulc (a b : Vec3) : Vec3 := ⟨a.x * b.x, a.y * b.y, a.z * b.z⟩

/-- The structured-document format (`nlohmann::json` restricted to the shapes
the library reads and writes). -/
inductive Json where
  | num (q : ℚ)
  | str (s : String)
  | jbool (b : Bool)
  | arr (elems : List Json)
  | obj (fields : List (String × Json))

/-- Object field access `j["key"]` on a const document: `none` when the key is
absent or the document is not an object (the hard-failure case of §7). -/
def Json.getField : Json → String → Option Json
  | .obj fields, k => fields.lookup k
  | _, _ => none

/-- Conversion of a document to a number (`float x = j`). -/
def Json.getNum : Json → Option ℚ
  | .num q => some q
  | _ => none

/-- Conversion of a document to a string. -/
def Json.getStr : Json → Option String
  | .str s => some s
  | _ => none

/-- Conversion of a document to a boolean. -/
def Json.getBool : Json → Option Bool
  | .jbool b => some b
  | _ => none

/-- Array view of a document. -/
def Json.getArr : Json → Option (List Json)
  | .arr elems => some elems
  | _ => none

/-- `Transform::Vec3::Serialize`: emits `{x, y, z}`. -/
def Vec3.serialize (v : Vec3) : Json :=
  .obj [("x", .num v.x), ("y", .num v.y), ("z", .num v.z)]

/-- `Transform::Vec3::Deserialize`: reads `x`, `y`, `z`; any missing key (or a
non-numeric value, which also throws in `nlohmann::json`) aborts the whole
read.  The C++ version mutates fields in place and an exception propagates out
of the whole load, so the partially written state is never observable; the
`Option` result models exactly that. -/
def Vec3.deserialize (j : Json) : Option Vec3 := do
  let x ← (j.getField "x").bind Json.getNum
  let y ← (j.getField "y").bind Json.getNum
  let z ← (j.getField "z").bind Json.getNum
  some ⟨x, y, z⟩

/-- `class Transform` state: authoritative local fields, the cached world
triple guarded by `dirty`, and the weak owner reference set by `SetOwner`. -/
structure Transform where
  localPosition : Vec3
  localRotation : Vec3
  localScale : Vec3
  dirty : Bool
  worldPosition : Vec3
  worldRotation : Vec3
  worldScale : Vec3
  owner : Option Nat
deriving DecidableEq, Repr

/-- `Transform::Transform()`: locals zero (scale one), `dirty = true`, cached
world values zero (scale one).  `owner` starts empty; `SetOwner` is modelled at
the call sites of `AddComponent`. -/
def Transform.ctor : Transform :=
  { localPosition := ⟨0, 0, 0⟩
    localRotation := ⟨0, 0, 0⟩
    localScale := ⟨1, 1, 1⟩
    dirty := true
    worldPosition := ⟨0, 0, 0⟩
    worldRotation := ⟨0, 0, 0⟩
    worldScale := ⟨1, 1, 1⟩
    owner := none }

/-- The `world… = local…; dirty = false` tail of `UpdateWorldTransform` taken
in the no-parent / parent-without-Transform branches. -/
def worldFromLocal (t : Transform) : Transform :=
  { t with
    worldPosition := t.localPosition
    worldRotation := t.localRotation
    worldScale := t.localScale
    dirty := false }

/-- `Transform::Serialize`: the three local vectors only. -/
def Transform.serializeComp (t : Transform) : Json :=
  .obj [("position", t.localPosition.serialize),
        ("rotation", t.localRotation.serialize),
        ("scale", t.localScale.serialize)]

/-- `Transform::Deserialize`: reads the three local vectors and sets `dirty`.
World caches and the owner reference are untouched. -/
def Transform.deserializeComp (t : Transform) (j : Json) : Option Transform := do
  let p ← (j.getField "position").bind Vec3.deserialize
  let r ← (j.getField "rotation").bind Vec3.deserialize
  let sc ← (j.getField "scale").bind Vec3.deserialize
  some { t with localPosition := p, localRotation := r, localScale := sc, dirty := true }

/-- `class Node`.  The component map holds at most one component per type and
the only concrete component type in the library is `Transform`; the map entry
for `Transform` and the fast-path `transform` pointer are kept in sync by
every operation (`AddComponent`, `RemoveComponent`, `Deserialize`), so both
are modelled by the single field `transform?`. -/
structure Node where
  name : String
  parent : Option Nat
  children : List Nat
  active : Bool
  transform? : Option Transform
deriving DecidableEq, Repr

/-- `HasComponent<Transform>()` (lookup in the component map). -/
def Node.hasTransformComp (n : Node) : Bool := n.transform?.isSome

/-- `Node::Node(name)`: runs `AddComponent<Transform>()`.  `weak_from_this()`
inside the constructor is an empty `weak_ptr` (the enable_shared_from_this
back-reference is seeded only after construction), so `SetOwner` stores an
empty owner; then `OnAttach` sets `dirty = true` and calls
`UpdateWorldTransform`, which finds no owner and only clears `dirty`, leaving
the constructor's cached world values in place.  The lemma
`updateWorldTransform_ctor` below re-derives this record from those steps. -/
def Node.ctor (name : String) : Node :=
  { name := name
    parent := none
    children := []
    active := true
    transform? := some { Transform.ctor with dirty := false } }

/-- The heap of nodes: an association list of live `shared_ptr<Node>` objects
plus a fresh-identifier counter for allocation. -/
structure Store where
  nodes : List (Nat × Node)
  nextId : Nat
deriving DecidableEq, Repr

/-- Lookup in the heap (locking a pointer). -/
def findIn : List (Nat × Node) → Nat → Option Node
  | [], _ => none
  | (k, n) :: l, i => if k = i then some n else findIn l i

def Store.find? (s : Store) (i : Nat) : Option Node := findIn s.nodes i

/-- In-place mutation of the node object at `i` (no-op when absent, which is
unreachable for live pointers). -/
def setIn : List (Nat × Node) → Nat → Node → List (Nat × Node)
  | [], _, _ => []
  | (k, n) :: l, i, n' => (k, if k = i then n' else n) :: setIn l i n'

def Store.set (s : Store) (i : Nat) (n : Node) : Store :=
  { s with nodes := setIn s.nodes i n }

/-- In-place mutation of the Transform component object owned by node `i`
(writing through a `shared_ptr<Transform>`). -/
def setTransformIn : List (Nat × Node) → Nat → Transform → List (Nat × Node)
  | [], _, _ => []
  | (k, n) :: l, i, t =>
    (k, if k = i then { n with transform? := some t } else n) :: setTransformIn l i t

def Store.setTransform (s : Store) (i : Nat) (t : Transform) : Store :=
  { s with nodes := setTransformIn s.nodes i t }

/-- `std::make_shared<Node>(…)`: allocates a fresh object. -/
def Store.alloc (s : Store) (n : Node) : Store × Nat :=
  ({ nodes := s.nodes ++ [(s.nextId, n)], nextId := s.nextId + 1 }, s.nextId)

/-- Heap sanity: every allocated identifier is below the allocation counter.
Holds for every store built from .alloc / .set / .setTransform. -/
def Store.wf (s : Store) : Prop := ∀ p ∈ s.nodes, p.1 < s.nextId

instance (s : Store) : Decidable s.wf := by
  unfold Store.wf; infer_instance

/-- `class Scene`: an ordered forest of root nodes over the heap. -/
structure Scene where
  store : Store
  rootNodes : List Nat
deriving DecidableEq, Repr

/-- An empty scene over an empty heap. -/
def Scene.empty : Scene := { store := { nodes := [], nextId := 0 }, rootNodes := [] }

/-- Selector distinguishing the three world getters
`GetWorldPosition` / `GetWorldRotation` / `GetWorldScale`, which share one
body up to the returned field. -/
inductive Sel where
  | pos
  | rot
  | scl
deriving DecidableEq, Repr

/-- The cached world field a getter returns. -/
def selWorld : Sel → Transform → Vec3
  | .pos, t => t.worldPosition
  | .rot, t => t.worldRotation
  | .scl, t => t.worldScale

/-- Body of `Transform::UpdateWorldTransform`, with the three recursive calls
to the parent Transform's world getters abstracted as `getPar` (instantiated
below with the fuel-bounded getter).  Line by line:
`owner.lock()` (fails: only `dirty = false`); `node->GetParent()` locked
(absent or expired: world := local); `parent->GetComponent<Transform>()`
(absent: world := local); otherwise fetch the parent's world position,
rotation and scale in that order (each call may mutate the heap) and combine:
position is parent position plus local position times parent scale
component-wise, rotation is component-wise addition, scale is component-wise
product; `dirty = false` in every branch. -/
def updateWorldWith (getPar : Sel → Store → Nat → Option (Vec3 × Store))
    (s : Store) (t : Transform) : Option (Transform × Store) :=
  match t.owner.bind s.find? with
  | none => some ({ t with dirty := false }, s)
  | some node =>
    match node.parent with
    | none => some (worldFromLocal t, s)
    | some pid =>
      match s.find? pid with
      | none => some (worldFromLocal t, s)
      | some pnode =>
        match pnode.transform? with
        | none => some (worldFromLocal t, s)
        | some _ =>
          match getPar Sel.pos s pid with
          | none => none
          | some (pwp, s₁) =>
            match getPar Sel.rot s₁ pid with
            | none => none
            | some (pwr, s₂) =>
              match getPar Sel.scl s₂ pid with
              | none => none
              | some (pws, s₃) =>
                some ({ t with
                        worldPosition := vadd pwp (vmulc t.localPosition pws)
                        worldRotation := vadd pwr t.localRotation
                        worldScale := vmulc pws t.localScale
                        dirty := false }, s₃)

/-- World getter invoked through a node: fetch the node's Transform component,
run `GetWorld…` on it (recomputing via `UpdateWorldTransform` when dirty), and
write the mutated component object back.  `fuel` bounds the length of the
parent chain that can be recomputed; the C++ recursion diverges on a cyclic
chain, which the model reports as `none`. -/
def getWorldAt : Nat → Sel → Store → Nat → Option (Vec3 × Store)
  | 0, _, _, _ => none
  | fuel + 1, sel, s, nid =>
    match s.find? nid with
    | none => none
    | some node =>
      match node.transform? with
      | none => none
      | some t =>
        if t.dirty then
          match updateWorldWith (getWorldAt fuel) s t with
          | none => none
          | some (t', s') => some (selWorld sel t', s'.setTransform nid t')
        else
          some (selWorld sel t, s)

/-- `Transform::UpdateWorldTransform` with parent-chain budget `fuel`. -/
def updateWorldTransform (fuel : Nat) (s : Store) (t : Transform) :
    Option (Transform × Store) :=
  updateWorldWith (getWorldAt fuel) s t

/-- `Transform::GetWorldPosition` / `GetWorldRotation` / `GetWorldScale` on a
free-standing Transform object: recompute if dirty, then return the cached
field together with the mutated component and heap. -/
def getWorldT (fuel : Nat) (sel : Sel) (s : Store) (t : Transform) :
    Option (Vec3 × Transform × Store) :=
  if t.dirty then
    match updateWorldTransform fuel s t with
    | none => none
    | some (t', s') => some (selWorld sel t', t', s')
  else
    some (selWorld sel t, t, s)

/-- Child-marking loop shared by the three local setters: for each direct
child of the owner, if the child has a Transform, set its `dirty` flag. -/
def markChildrenDirty (s : Store) (cs : List Nat) : Store :=
  cs.foldl
    (fun acc c =>
      match acc.find? c with
      | none => acc
      | some cn =>
        match cn.transform? with
        | none => acc
        | some ct => acc.setTransform c { ct with dirty := true })
    s

/-- `Transform::SetLocalPosition`: write the local field, set `dirty`, then
lock the owner and mark every direct child's Transform dirty (skipped entirely
when the owner reference is empty or expired). -/
def Transform.setLocalPosition (s : Store) (t : Transform) (v : Vec3) :
    Transform × Store :=
  let t' := { t with localPosition := v, dirty := true }
  match t.owner.bind s.find? with
  | none => (t', s)
  | some node => (t', markChildrenDirty s node.children)

/-- `Transform::SetLocalRotation`; same shape as `SetLocalPosition`. -/
def Transform.setLocalRotation (s : Store) (t : Transform) (v : Vec3) :
    Transform × Store :=
  let t' := { t with localRotation := v, dirty := true }
  match t.owner.bind s.find? with
  | none => (t', s)
  | some node => (t', markChildrenDirty s node.children)

/-- `Transform::SetLocalScale`; same shape as `SetLocalPosition`. -/
def Transform.setLocalScale (s : Store) (t : Transform) (v : Vec3) :
    Transform × Store :=
  let t' := { t with localScale := v, dirty := true }
  match t.owner.bind s.find? with
  | none => (t', s)
  | some node => (t', markChildrenDirty s node.children)

/-- `SetLocalPosition` invoked on the Transform component of node `nid`, with
the mutated component written back to the heap. -/
def setLocalPositionAt (s : Store) (nid : Nat) (v : Vec3) : Option Store :=
  match s.find? nid with
  | none => none
  | some node =>
    match node.transform? with
    | none => none
    | some t =>
      let (t', s') := t.setLocalPosition s v
      some (s'.setTransform nid t')

/-- `SetLocalRotation` invoked on the Transform component of node `nid`. -/
def setLocalRotationAt (s : Store) (nid : Nat) (v : Vec3) : Option Store :=
  match s.find? nid with
  | none => none
  | some node =>
    match node.transform? with
    | none => none
    | some t =>
      let (t', s') := t.setLocalRotation s v
      some (s'.setTransform nid t')

/-- `SetLocalScale` invoked on the Transform component of node `nid`. -/
def setLocalScaleAt (s : Store) (nid : Nat) (v : Vec3) : Option Store :=
  match s.find? nid with
  | none => none
  | some node =>
    match node.transform? with
    | none => none
    | some t =>
      let (t', s') := t.setLocalScale s v
      some (s'.setTransform nid t')

/-- Generic `Option`-valued map over a list, used to translate the library's
loops that can fail via fuel exhaustion. -/
def optMap (f : α → Option β) : List α → Option (List β)
  | [] => some []
  | a :: l =>
    match f a with
    | none => none
    | some b =>
      match optMap f l with
      | none => none
      | some bs => some (b :: bs)

/-- Generic `Option`-valued left fold, used to translate the library's
state-threading loops. -/
def optFold (f : σ → α → Option σ) : σ → List α → Option σ
  | acc, [] => some acc
  | acc, a :: l =>
    match f acc a with
    | none => none
    | some acc' => optFold f acc' l

/-- `Node::GetParent()`: lock the weak parent reference (null when empty or
expired). -/
def nodeGetParent (s : Store) (n : Node) : Option Nat :=
  n.parent.bind fun p => (s.find? p).map fun _ => p

/-- The `SetLocal…(GetWorld…())` triple at the end of `Node::SetParent` ("//
Update transform when parent changes"): position, then rotation, then scale,
each getter running on the heap left by the previous step. -/
def transformJuggle (fuel : Nat) (s₃ : Store) (nid : Nat) : Option Store := do
  let x ← getWorldAt fuel Sel.pos s₃ nid
  let s₅ ← setLocalPositionAt x.2 nid x.1
  let y ← getWorldAt fuel Sel.rot s₅ nid
  let s₇ ← setLocalRotationAt y.2 nid y.1
  let z ← getWorldAt fuel Sel.scl s₇ nid
  setLocalScaleAt z.2 nid z.1

/-- The `if (newParent)` body of `Node::SetParent`, starting from the heap
`s₁` in which the node has already been detached from its old parent: write
the parent reference, `AddChild` (append unless already present), then — when
the node has a Transform — run the world-preserving juggle above. -/
def setParentAttach (fuel : Nat) (s₁ : Store) (nid np : Nat) : Option Store :=
  match s₁.find? np with
  | none => none
  | some _ => do
    let node₁ ← s₁.find? nid
    let s₂ := s₁.set nid { node₁ with parent := some np }
    let npNode ← s₂.find? np
    let s₃ :=
      if npNode.children.contains nid then s₂
      else s₂.set np { npNode with children := npNode.children ++ [nid] }
    let node₃ ← s₃.find? nid
    match node₃.transform? with
    | none => some s₃
    | some _ => transformJuggle fuel s₃ nid

/-- `Node::SetParent(newParent)`.  Steps, in source order: lock the old
parent and erase this node from its children; when the new parent is non-null,
run `setParentAttach` — note the world getters run AFTER the parent link has
been switched.  A null `newParent` stops after the erase step: the parent
reference is NOT reset. -/
def setParent (fuel : Nat) (s : Store) (nid : Nat) (newParent : Option Nat) :
    Option Store :=
  match s.find? nid with
  | none => none
  | some node =>
    let s₁ :=
      match node.parent.bind fun p => (s.find? p).map fun pn => (p, pn) with
      | none => s
      | some (pid, pnode) =>
        s.set pid { pnode with children := pnode.children.filter (· ≠ nid) }
    match newParent with
    | none => some s₁
    | some np => setParentAttach fuel s₁ nid np

/-- `Node::RemoveParent()`: when the parent locks, erase this node from its
children and reset the parent reference. -/
def removeParent (s : Store) (nid : Nat) : Option Store :=
  match s.find? nid with
  | none => none
  | some node =>
    match node.parent.bind fun p => (s.find? p).map fun pn => (p, pn) with
    | none => some s
    | some (pid, pnode) =>
      let s₁ := s.set pid { pnode with children := pnode.children.filter (· ≠ nid) }
      match s₁.find? nid with
      | none => none
      | some node₁ => some (s₁.set nid { node₁ with parent := none })

/-- `Node::SetActive(value)`: no-op when the flag already equals `value`;
otherwise write the flag and recursively call `SetActive(value)` on every
child.  `fuel` bounds the recursion depth. -/
def setActive : Nat → Store → Nat → Bool → Option Store
  | 0, _, _, _ => none
  | fuel + 1, s, nid, value =>
    match s.find? nid with
    | none => none
    | some node =>
      if node.active = value then some s
      else
        let s₁ := s.set nid { node with active := value }
        optFold (fun acc c => setActive fuel acc c value) s₁ node.children

/-- `node->AddComponent<Transform>()` invoked on an already shared node (the
post-construction path): the fresh component's owner IS seeded with the node,
the map entry and fast-path pointer are overwritten, and `OnAttach` runs
(`dirty = true`, then `UpdateWorldTransform`). -/
def addTransformComponent (fuel : Nat) (s : Store) (nid : Nat) : Option Store :=
  match s.find? nid with
  | none => none
  | some _ =>
    let t : Transform := { Transform.ctor with owner := some nid }
    let s₁ := s.setTransform nid t
    match updateWorldTransform fuel s₁ { t with dirty := true } with
    | none => none
    | some (t', s₂) => some (s₂.setTransform nid t')

/-- The recursive `collect` lambda of `Scene::CollectAllNodes`: push the node,
then recurse into its children, pre-order. -/
def collectFrom : Nat → Store → Nat → Option (List Nat)
  | 0, _, _ => none
  | fuel + 1, s, nid =>
    match s.find? nid with
    | none => none
    | some node =>
      match optMap (fun c => collectFrom fuel s c) node.children with
      | none => none
      | some css => some (nid :: css.flatten)

/-- `Scene::CollectAllNodes` over all roots (also the snapshot taken by
`ForEachNode`). -/
def collectAllNodes (fuel : Nat) (sc : Scene) : Option (List Nat) :=
  match optMap (fun r => collectFrom fuel sc.store r) sc.rootNodes with
  | none => none
  | some css => some css.flatten

/-- `Scene::FindNodeByName`: `ForEachNode` over the snapshot with the callback
`if (node->GetName() == name) result = node;` — every match OVERWRITES the
result.  Outer `Option` is fuel; the inner `Option Nat` is the returned
`NodePtr` (null when no match). -/
def findNodeByName (fuel : Nat) (sc : Scene) (name : String) :
    Option (Option Nat) :=
  match collectAllNodes fuel sc with
  | none => none
  | some ids =>
    some (ids.foldl
      (fun r nid =>
        match sc.store.find? nid with
        | some node => if node.name = name then some nid else r
        | none => r)
      none)

/-- `Scene::CreateNode(name)`: allocate a fresh node and append it to the
scene's root list. -/
def Scene.createNode (sc : Scene) (name : String) : Scene × Nat :=
  let (st, nid) := sc.store.alloc (Node.ctor name)
  ({ store := st, rootNodes := sc.rootNodes ++ [nid] }, nid)

/-- `Scene::CreateNode(parent, name)`: allocate a fresh node; with a non-null
parent, attach it via `SetParent` (and do NOT add it to the root list);
with a null parent, append it to the root list. -/
def Scene.createNodeUnder (fuel : Nat) (sc : Scene) (parent : Option Nat)
    (name : String) : Option (Scene × Nat) :=
  let (st, nid) := sc.store.alloc (Node.ctor name)
  match parent with
  | some p =>
    match setParent fuel st nid (some p) with
    | none => none
    | some st' => some ({ sc with store := st' }, nid)
  | none => some ({ store := st, rootNodes := sc.rootNodes ++ [nid] }, nid)

/-- `Node::Serialize`: `{name, active, components, children}`.  The component
map holds at most the Transform (see `Node.transform?`), so the `components`
array is empty or the single `{type: "Transform", data: …}` entry; children
are serialized recursively in order. -/
def nodeSerialize : Nat → Store → Nat → Option Json
  | 0, _, _ => none
  | fuel + 1, s, nid =>
    match s.find? nid with
    | none => none
    | some node =>
      let comps : List Json :=
        match node.transform? with
        | some t => [Json.obj [("type", .str "Transform"), ("data", t.serializeComp)]]
        | none => []
      match optMap (fun c => nodeSerialize fuel s c) node.children with
      | none => none
      | some childJs =>
        some (.obj [("name", .str node.name), ("active", .jbool node.active),
                    ("components", .arr comps), ("children", .arr childJs)])

/-- `Node::Deserialize` on the node object `nid`.  Source order: read `name`
and `active`; rebuild the component map keeping only the existing Transform
(a no-op on `transform?`); for each entry of `components` whose `type` is
`"Transform"`, deserialize its `data` into the existing Transform when there
is one (unknown types are silently skipped); clear `children`; then for each
entry of `children`, `make_shared<Node>()` (default name "Node"), recursively
deserialize it, `AddChild` it, and point its parent reference back — directly,
without going through `SetParent`. -/
def nodeDeserialize : Nat → Store → Nat → Json → Option Store
  | 0, _, _, _ => none
  | fuel + 1, s, nid, j =>
    match s.find? nid with
    | none => none
    | some node =>
      match (j.getField "name").bind Json.getStr with
      | none => none
      | some nm =>
        match (j.getField "active").bind Json.getBool with
        | none => none
        | some ac =>
          let s₁ := s.set nid { node with name := nm, active := ac }
          match (j.getField "components").bind Json.getArr with
          | none => none
          | some comps =>
            match
              optFold
                (fun st cj =>
                  match (cj.getField "type").bind Json.getStr with
                  | none => none
                  | some ty =>
                    if ty = "Transform" then
                      match (st.find? nid).bind (·.transform?) with
                      | some t =>
                        match cj.getField "data" with
                        | none => none
                        | some d =>
                          match t.deserializeComp d with
                          | none => none
                          | some t' => some (st.setTransform nid t')
                      | none => some st
                    else some st)
                s₁ comps
            with
            | none => none
            | some s₂ =>
              match s₂.find? nid with
              | none => none
              | some node₂ =>
                let s₃ := s₂.set nid { node₂ with children := [] }
                match (j.getField "children").bind Json.getArr with
                | none => none
                | some childJs =>
                  optFold
                    (fun st cj =>
                      let (st₁, cid) := st.alloc (Node.ctor "Node")
                      match nodeDeserialize fuel st₁ cid cj with
                      | none => none
                      | some st₂ =>
                        match st₂.find? nid with
                        | none => none
                        | some pn =>
                          let st₃ :=
                            if pn.children.contains cid then st₂
                            else st₂.set nid { pn with children := pn.children ++ [cid] }
                          match st₃.find? cid with
                          | none => none
                          | some cn => some (st₃.set cid { cn with parent := some nid }))
                    s₃ childJs

/-- `Scene::Serialize`: `{rootNodes: [Node…]}`. -/
def sceneSerialize (fuel : Nat) (sc : Scene) : Option Json :=
  match optMap (fun r => nodeSerialize fuel sc.store r) sc.rootNodes with
  | none => none
  | some js => some (.obj [("rootNodes", .arr js)])

/-- `Scene::Deserialize`: clear the root list, then for each entry of
`rootNodes` allocate a fresh node, deserialize into it, and append it. -/
def sceneDeserialize (fuel : Nat) (sc : Scene) (j : Json) : Option Scene :=
  match (j.getField "rootNodes").bind Json.getArr with
  | none => none
  | some rootJs =>
    optFold
      (fun (acc : Scene) rj =>
        let (st₁, nid) := acc.store.alloc (Node.ctor "Node")
        match nodeDeserialize fuel st₁ nid rj with
        | none => none
        | some st₂ => some { store := st₂, rootNodes := acc.rootNodes ++ [nid] })
      { sc with rootNodes := [] } rootJs

/-
The pure tree view.  Round-trip and cascade claims compare heaps up to the
observable tree: node names, active flags, Transform local values, and the
child structure.  `extract` reads that view off a heap (failing on cycles or
dangling children deeper than the fuel).
-/

mutual
/-- Observable view of one node: name, active flag, Transform local values
(when a Transform is present), and the ordered children. -/
inductive PTree where
  | node : String → Bool → Option (Vec3 × Vec3 × Vec3) → PForest → PTree
/-- Observable view of an ordered sequence of sibling trees. -/
inductive PForest where
  | nil : PForest
  | cons : PTree → PForest → PForest
end

/-- Builds a forest from a list of trees. -/
def PForest.ofList : List PTree → PForest
  | [] => .nil
  | t :: ts => .cons t (PForest.ofList ts)

mutual
/-- Height of a tree (used to bound the fuel of recursive operations). -/
def PTree.ht : PTree → Nat
  | .node _ _ _ f => PForest.htF f + 1
/-- Maximum height over a forest. -/
def PForest.htF : PForest → Nat
  | .nil => 0
  | .cons t f => max (PTree.ht t) (PForest.htF f)
end

mutual
/-- Every node of the tree carries a Transform. -/
def PTree.allT : PTree → Bool
  | .node _ _ locs f => locs.isSome && PForest.allTF f
/-- Every node of the forest carries a Transform. -/
def PForest.allTF : PForest → Bool
  | .nil => true
  | .cons t f => PTree.allT t && PForest.allTF f
end

mutual
/-- The flag sweep `Node::SetActive` performs, expressed on the observable
tree: a node whose flag already equals the target is left untouched together
with its whole subtree; otherwise the flag is written and the sweep recurses
into every child. -/
def treeSetActive (v : Bool) : PTree → PTree
  | .node nm ac locs f =>
    if ac = v then .node nm ac locs f else .node nm v locs (treeSetActiveF v f)
/-- `treeSetActive` mapped over a forest. -/
def treeSetActiveF (v : Bool) : PForest → PForest
  | .nil => .nil
  | .cons t f => .cons (treeSetActive v t) (treeSetActiveF v f)
end

mutual
/-- The document `Node::Serialize` produces for a node with the given
observable view (components array empty or the single Transform entry;
children in order). -/
def encodePTree : PTree → Json
  | .node nm ac locs f =>
    .obj [("name", .str nm), ("active", .jbool ac),
          ("components", .arr
            (match locs with
             | some (p, r, sc) =>
               [Json.obj [("type", .str "Transform"),
                 ("data", Json.obj [("position", p.serialize),
                                    ("rotation", r.serialize),
                                    ("scale", sc.serialize)])]]
             | none => [])),
          ("children", .arr (encodeF f))]
/-- `encodePTree` mapped over a forest. -/
def encodeF : PForest → List Json
  | .nil => []
  | .cons t f => encodePTree t :: encodeF f
end

/-- Reads the observable view of the subtree rooted at `nid` off the heap. -/
def extract : Nat → Store → Nat → Option PTree
  | 0, _, _ => none
  | fuel + 1, s, nid =>
    match s.find? nid with
    | none => none
    | some node =>
      match optMap (fun c => extract fuel s c) node.children with
      | none => none
      | some ts =>
        some (.node node.name node.active
          (node.transform?.map fun t => (t.localPosition, t.localRotation, t.localScale))
          (PForest.ofList ts))

/-- Observable view of a whole scene: the forest of root subtrees in order. -/
def extractScene (fuel : Nat) (sc : Scene) : Option PForest :=
  (optMap (fun r => extract fuel sc.store r) sc.rootNodes).map PForest.ofList

/-
Heap access lemmas.
-/

theorem findIn_setIn (l : List (Nat × Node)) (i : Nat) (n : Node) (j : Nat) :
    findIn (setIn l i n) j =
      if i = j then (findIn l j).map (fun _ => n) else findIn l j := by
  induction l with
  | nil => simp [setIn, findIn]
  | cons hd tl ih =>
    obtain ⟨k, m⟩ := hd
    by_cases hk : k = i
    · subst hk
      by_cases hj : k = j
      · subst hj; simp [setIn, findIn]
      · simp [setIn, findIn, hj, ih]
    · by_cases hj : k = j
      · subst hj
        have hik : i ≠ k := fun h => hk h.symm
        simp [setIn, findIn, hk, hik]
      · simp [setIn, findIn, hk, hj, ih]

theorem Store.find?_set (s : Store) (i : Nat) (n : Node) (j : Nat) :
    (s.set i n).find? j =
      if i = j then (s.find? j).map (fun _ => n) else s.find? j :=
  findIn_setIn s.nodes i n j

theorem Store.nextId_set (s : Store) (i : Nat) (n : Node) :
    (s.set i n).nextId = s.nextId := rfl

theorem findIn_setTransformIn (l : List (Nat × Node)) (i : Nat) (t : Transform) (j : Nat) :
    findIn (setTransformIn l i t) j =
      if i = j then (findIn l j).map (fun nd => { nd with transform? := some t })
      else findIn l j := by
  induction l with
  | nil => simp [setTransformIn, findIn]
  | cons hd tl ih =>
    obtain ⟨k, m⟩ := hd
    by_cases hk : k = i
    · subst hk
      by_cases hj : k = j
      · subst hj; simp [setTransformIn, findIn]
      · simp [setTransformIn, findIn, hj, ih]
    · by_cases hj : k = j
      · subst hj
        have hik : i ≠ k := fun h => hk h.symm
        simp [setTransformIn, findIn, hk, hik]
      · simp [setTransformIn, findIn, hk, hj, ih]

theorem Store.find?_setTransform (s : Store) (i : Nat) (t : Transform) (j : Nat) :
    (s.setTransform i t).find? j =
      if i = j then (s.find? j).map (fun nd => { nd with transform? := some t })
      else s.find? j :=
  findIn_setTransformIn s.nodes i t j

theorem Store.nextId_setTransform (s : Store) (i : Nat) (t : Transform) :
    (s.setTransform i t).nextId = s.nextId := rfl

theorem findIn_eq_none (l : List (Nat × Node)) (i : Nat)
    (h : ∀ p ∈ l, p.1 ≠ i) : findIn l i = none := by
  induction l with
  | nil => rfl
  | cons hd tl ih =>
    have h1 := h hd (List.mem_cons_self _ _)
    simp [findIn, h1]
    exact ih fun p hp => h p (List.mem_cons_of_mem _ hp)

theorem findIn_append_some (l₁ l₂ : List (Nat × Node)) (j : Nat) (n : Node)
    (h : findIn l₁ j = some n) : findIn (l₁ ++ l₂) j = some n := by
  induction l₁ with
  | nil => simp [findIn] at h
  | cons hd tl ih =>
    obtain ⟨k, m⟩ := hd
    by_cases hj : k = j
    · subst hj; simp [findIn] at h ⊢; exact h
    · simp [findIn, hj] at h ⊢; exact ih h

theorem findIn_append_none (l₁ l₂ : List (Nat × Node)) (j : Nat)
    (h : findIn l₁ j = none) : findIn (l₁ ++ l₂) j = findIn l₂ j := by
  induction l₁ with
  | nil => rfl
  | cons hd tl ih =>
    obtain ⟨k, m⟩ := hd
    by_cases hj : k = j
    · subst hj; simp [findIn] at h
    · simp [findIn, hj] at h ⊢; exact ih h

theorem Store.find?_alloc_new (s : Store) (n : Node) (h : s.wf) :
    (s.alloc n).1.find? s.nextId = some n := by
  have hnone : findIn s.nodes s.nextId = none :=
    findIn_eq_none _ _ fun p hp => Nat.ne_of_lt (h p hp)
  show findIn (s.nodes ++ [(s.nextId, n)]) s.nextId = some n
  rw [findIn_append_none _ _ _ hnone]
  simp [findIn]

theorem Store.find?_alloc_old (s : Store) (n : Node) (m : Nat) (hm : m ≠ s.nextId) :
    (s.alloc n).1.find? m = s.find? m := by
  show findIn (s.nodes ++ [(s.nextId, n)]) m = findIn s.nodes m
  cases hf : findIn s.nodes m with
  | some x => exact findIn_append_some _ _ _ _ hf
  | none =>
    rw [findIn_append_none _ _ _ hf]
    have hne : s.nextId ≠ m := fun h => hm h.symm
    simp [findIn, hne]

theorem Store.nextId_alloc (s : Store) (n : Node) :
    (s.alloc n).1.nextId = s.nextId + 1 := rfl

theorem setIn_keys (l : List (Nat × Node)) (i : Nat) (n : Node) :
    (setIn l i n).map Prod.fst = l.map Prod.fst := by
  induction l with
  | nil => rfl
  | cons hd tl ih =>
    obtain ⟨k, m⟩ := hd
    simp [setIn, ih]

theorem setTransformIn_keys (l : List (Nat × Node)) (i : Nat) (t : Transform) :
    (setTransformIn l i t).map Prod.fst = l.map Prod.fst := by
  induction l with
  | nil => rfl
  | cons hd tl ih =>
    obtain ⟨k, m⟩ := hd
    simp [setTransformIn, ih]

theorem Store.wf_set (s : Store) (i : Nat) (n : Node) (h : s.wf) : (s.set i n).wf := by
  intro p hp
  have hmem : p.1 ∈ (setIn s.nodes i n).map Prod.fst := List.mem_map_of_mem _ hp
  rw [setIn_keys] at hmem
  obtain ⟨q, hq, hqe⟩ := List.mem_map.mp hmem
  show p.1 < s.nextId
  rw [← hqe]; exact h q hq

theorem Store.wf_setTransform (s : Store) (i : Nat) (t : Transform) (h : s.wf) :
    (s.setTransform i t).wf := by
  intro p hp
  have hmem : p.1 ∈ (setTransformIn s.nodes i t).map Prod.fst := List.mem_map_of_mem _ hp
  rw [setTransformIn_keys] at hmem
  obtain ⟨q, hq, hqe⟩ := List.mem_map.mp hmem
  show p.1 < s.nextId
  rw [← hqe]; exact h q hq

theorem Store.wf_alloc (s : Store) (n : Node) (h : s.wf) : (s.alloc n).1.wf := by
  intro p hp
  show p.1 < s.nextId + 1
  rcases List.mem_append.mp hp with h1 | h2
  · exact Nat.lt_succ_of_lt (h p h1)
  · simp at h2; rw [h2]; exact Nat.lt_succ_self _

/-- Presence in the heap is decided by `find?`. -/
theorem Store.find?_isSome_set (s : Store) (i : Nat) (n : Node) (j : Nat) :
    ((s.set i n).find? j).isSome = (s.find? j).isSome := by
  rw [Store.find?_set]
  by_cases hij : i = j <;> simp [hij]

theorem Store.find?_isSome_setTransform (s : Store) (i : Nat) (t : Transform) (j : Nat) :
    ((s.setTransform i t).find? j).isSome = (s.find? j).isSome := by
  rw [Store.find?_setTransform]
  by_cases hij : i = j <;> simp [hij]

/-
Frame lemmas for the world getters: `GetWorld…` / `UpdateWorldTransform` only
ever write Transform components back through `setTransform`, so the node
structure of the heap (names, links, flags, presence) is untouched.
-/

/-- The non-component part of a node record. -/
def Node.shape (n : Node) : String × Option Nat × List Nat × Bool :=
  (n.name, n.parent, n.children, n.active)

/-- Heap evolution that can only have rewritten Transform components. -/
def framePres (s s' : Store) : Prop :=
  s'.nextId = s.nextId ∧ ∀ m, (s'.find? m).map Node.shape = (s.find? m).map Node.shape

theorem framePres_refl (s : Store) : framePres s s := ⟨rfl, fun _ => rfl⟩

theorem framePres_trans {s₁ s₂ s₃ : Store} (h₁ : framePres s₁ s₂) (h₂ : framePres s₂ s₃) :
    framePres s₁ s₃ :=
  ⟨h₂.1.trans h₁.1, fun m => (h₂.2 m).trans (h₁.2 m)⟩

theorem framePres_setTransform (s : Store) (i : Nat) (t : Transform) :
    framePres s (s.setTransform i t) := by
  refine ⟨rfl, fun m => ?_⟩
  rw [Store.find?_setTransform]
  by_cases hij : i = m
  · subst hij
    cases s.find? i <;> simp [Node.shape]
  · simp [hij]

theorem framePres_isSome {s s' : Store} (h : framePres s s') (m : Nat) :
    ((s'.find? m).isSome) = ((s.find? m).isSome) := by
  have := h.2 m
  cases h1 : s.find? m <;> cases h2 : s'.find? m <;> simp [h1, h2] at this ⊢

theorem updateWorldWith_frame
    (getPar : Sel → Store → Nat → Option (Vec3 × Store))
    (hPar : ∀ sel s₀ nid r, getPar sel s₀ nid = some r → framePres s₀ r.2)
    (s : Store) (t : Transform) (r : Transform × Store)
    (h : updateWorldWith getPar s t = some r) : framePres s r.2 := by
  unfold updateWorldWith at h
  cases hown : t.owner.bind s.find? with
  | none => simp only [hown] at h; cases h; exact framePres_refl s
  | some node =>
    simp only [hown] at h
    cases hpar : node.parent with
    | none => simp only [hpar] at h; cases h; exact framePres_refl s
    | some pid =>
      simp only [hpar] at h
      cases hpn : s.find? pid with
      | none => simp only [hpn] at h; cases h; exact framePres_refl s
      | some pnode =>
        simp only [hpn] at h
        cases hpt : pnode.transform? with
        | none => simp only [hpt] at h; cases h; exact framePres_refl s
        | some pt =>
          simp only [hpt] at h
          cases h1 : getPar Sel.pos s pid with
          | none => simp only [h1] at h; cases h
          | some r₁ =>
            obtain ⟨pwp, s₁⟩ := r₁
            simp only [h1] at h
            cases h2 : getPar Sel.rot s₁ pid with
            | none => simp only [h2] at h; cases h
            | some r₂ =>
              obtain ⟨pwr, s₂⟩ := r₂
              simp only [h2] at h
              cases h3 : getPar Sel.scl s₂ pid with
              | none => simp only [h3] at h; cases h
              | some r₃ =>
                obtain ⟨pws, s₃⟩ := r₃
                simp only [h3] at h
                cases h
                exact framePres_trans (framePres_trans (hPar _ _ _ _ h1) (hPar _ _ _ _ h2))
                  (hPar _ _ _ _ h3)

theorem getWorldAt_frame :
    ∀ (fuel : Nat) (sel : Sel) (s : Store) (nid : Nat) (r : Vec3 × Store),
      getWorldAt fuel sel s nid = some r → framePres s r.2 := by
  intro fuel
  induction fuel with
  | zero => intro sel s nid r h; cases h
  | succ fuel ih =>
    intro sel s nid r h
    unfold getWorldAt at h
    cases hn : s.find? nid with
    | none => simp only [hn] at h; cases h
    | some node =>
      simp only [hn] at h
      cases ht : node.transform? with
      | none => simp only [ht] at h; cases h
      | some t =>
        simp only [ht] at h
        by_cases hd : t.dirty
        · simp only [if_pos hd] at h
          cases hu : updateWorldWith (getWorldAt fuel) s t with
          | none => simp only [hu] at h; cases h
          | some r' =>
            obtain ⟨t', s'⟩ := r'
            simp only [hu] at h
            cases h
            exact framePres_trans
              (updateWorldWith_frame _ (fun sel s₀ n r h => ih sel s₀ n r h) s t _ hu)
              (framePres_setTransform s' nid t')
        · simp only [if_neg hd] at h
          cases h
          exact framePres_refl s

theorem updateWorldTransform_frame (fuel : Nat) (s : Store) (t : Transform)
    (r : Transform × Store) (h : updateWorldTransform fuel s t = some r) :
    framePres s r.2 :=
  updateWorldWith_frame _ (fun sel s₀ n r h => getWorldAt_frame fuel sel s₀ n r h) s t r h

/-- Every branch of `UpdateWorldTransform` ends with `dirty = false`. -/
theorem updateWorldTransform_clears (fuel : Nat) (s : Store) (t : Transform)
    (t' : Transform) (s' : Store) (h : updateWorldTransform fuel s t = some (t', s')) :
    t'.dirty = false := by
  unfold updateWorldTransform updateWorldWith at h
  cases hown : t.owner.bind s.find? with
  | none => simp only [hown] at h; cases h; rfl
  | some node =>
    simp only [hown] at h
    cases hpar : node.parent with
    | none => simp only [hpar] at h; cases h; rfl
    | some pid =>
      simp only [hpar] at h
      cases hpn : s.find? pid with
      | none => simp only [hpn] at h; cases h; rfl
      | some pnode =>
        simp only [hpn] at h
        cases hpt : pnode.transform? with
        | none => simp only [hpt] at h; cases h; rfl
        | some pt =>
          simp only [hpt] at h
          cases h1 : getWorldAt fuel Sel.pos s pid with
          | none => simp only [h1] at h; cases h
          | some r₁ =>
            obtain ⟨pwp, s₁⟩ := r₁
            simp only [h1] at h
            cases h2 : getWorldAt fuel Sel.rot s₁ pid with
            | none => simp only [h2] at h; cases h
            | some r₂ =>
              obtain ⟨pwr, s₂⟩ := r₂
              simp only [h2] at h
              cases h3 : getWorldAt fuel Sel.scl s₂ pid with
              | none => simp only [h3] at h; cases h
              | some r₃ =>
                obtain ⟨pws, s₃⟩ := r₃
                simp only [h3] at h
                cases h
                rfl

/-- A world getter on a clean Transform returns the cached field and leaves
the heap unchanged. -/
theorem getWorldAt_clean (fuel : Nat) (sel : Sel) (s : Store) (nid : Nat)
    (node : Node) (t : Transform) (hn : s.find? nid = some node)
    (ht : node.transform? = some t) (hd : t.dirty = false) :
    getWorldAt (fuel + 1) sel s nid = some (selWorld sel t, s) := by
  unfold getWorldAt
  simp only [hn, ht, hd]
  simp

/-- After a successful world getter on node `nid`, the node's Transform is
clean and caches exactly the returned value. -/
theorem getWorldAt_post (fuel : Nat) (sel : Sel) (s : Store) (nid : Nat)
    (v : Vec3) (s' : Store) (h : getWorldAt fuel sel s nid = some (v, s')) :
    ∃ node' t', s'.find? nid = some node' ∧ node'.transform? = some t' ∧
      t'.dirty = false ∧ v = selWorld sel t' := by
  cases fuel with
  | zero => cases h
  | succ fuel =>
    unfold getWorldAt at h
    cases hn : s.find? nid with
    | none => simp only [hn] at h; cases h
    | some node =>
      simp only [hn] at h
      cases ht : node.transform? with
      | none => simp only [ht] at h; cases h
      | some t =>
        simp only [ht] at h
        by_cases hd : t.dirty
        · simp only [if_pos hd] at h
          cases hu : updateWorldWith (getWorldAt fuel) s t with
          | none => simp only [hu] at h; cases h
          | some r' =>
            obtain ⟨t', s₁⟩ := r'
            simp only [hu] at h
            cases h
            have hfp : framePres s s₁ :=
              updateWorldWith_frame _ (fun sel s₀ n r h => getWorldAt_frame fuel sel s₀ n r h)
                s t _ hu
            have hsome : ((s₁.find? nid).isSome) = ((s.find? nid).isSome) :=
              framePres_isSome hfp nid
            simp only [hn] at hsome
            cases hn1 : s₁.find? nid with
            | none => simp only [hn1] at hsome; simp at hsome
            | some node₁ =>
              refine ⟨{ node₁ with transform? := some t' }, t', ?_, rfl, ?_, rfl⟩
              · rw [Store.find?_setTransform]
                simp [hn1]
              · exact updateWorldTransform_clears fuel s t t' s₁ hu
        · simp only [if_neg hd] at h
          cases h
          exact ⟨node, t, hn, ht, Bool.of_not_eq_true hd, rfl⟩

/-- OnAttach during `Node::Node`: with an empty owner, `UpdateWorldTransform`
only clears `dirty`, which yields exactly the Transform stored by
`Node.ctor`. -/
theorem updateWorldTransform_ctor (fuel : Nat) (s : Store) :
    updateWorldTransform fuel s { Transform.ctor with dirty := true } =
      some ({ Transform.ctor with dirty := false }, s) := rfl

/-- Claim C9: for every input document given to Vec3 deserialization, if any
of the keys `x`, `y`, `z` is absent the deserialization fails and the failure
propagates (no defaulting); if all three keys are present (with numeric
values, the only well-typed case) it succeeds and stores exactly those
values. -/
theorem vec3_deserialize_missing_key (j : Json) :
    ((j.getField "x" = none ∨ j.getField "y" = none ∨ j.getField "z" = none) →
      Vec3.deserialize j = none) ∧
    (∀ qx qy qz : ℚ, j.getField "x" = some (.num qx) → j.getField "y" = some (.num qy) →
      j.getField "z" = some (.num qz) →
      Vec3.deserialize j = some ⟨qx, qy, qz⟩) := by
  constructor
  · intro h
    unfold Vec3.deserialize
    rcases h with hx | hy | hz
    · simp [hx]
    · cases hgx : (j.getField "x").bind Json.getNum <;> simp [hy]
    · cases hgx : (j.getField "x").bind Json.getNum <;>
        cases hgy : (j.getField "y").bind Json.getNum <;> simp [hz]
  · intro qx qy qz hx hy hz
    unfold Vec3.deserialize
    simp [hx, hy, hz, Json.getNum]

/-- Witness for C9 at concrete documents: a document missing `y` fails, a
complete document succeeds with the stored values. -/
theorem vec3_deserialize_missing_key_witness :
    Vec3.deserialize (.obj [("x", .num 1)]) = none ∧
    Vec3.deserialize (.obj [("x", .num 1), ("y", .num 2), ("z", .num 3)]) =
      some ⟨1, 2, 3⟩ :=
  ⟨(vec3_deserialize_missing_key _).1 (Or.inr (Or.inl rfl)),
   (vec3_deserialize_missing_key _).2 1 2 3 rfl rfl rfl⟩

/-- Claim C10: for every Transform whose owner weak reference is empty or
expired, calling a world getter while `dirty` is set clears the flag without
recomputing anything and returns the previously cached world value (not the
current local values): the transform is returned otherwise unchanged and the
heap untouched. -/
theorem world_getter_expired_owner (fuel : Nat) (sel : Sel) (s : Store)
    (t : Transform) (hown : t.owner.bind s.find? = none) (hd : t.dirty = true) :
    getWorldT fuel sel s t = some (selWorld sel t, { t with dirty := false }, s) := by
  unfold getWorldT updateWorldTransform updateWorldWith
  rw [hd]
  simp only [hown, if_pos rfl]
  cases sel <;> rfl

/-- Witness for C10: a free Transform with empty owner, local position
`(7,7,7)` and stale cached world position `(0,0,0)`; the getter returns the
stale `(0,0,0)`, only clearing the flag. -/
theorem world_getter_expired_owner_witness :
    getWorldT 3 Sel.pos { nodes := [], nextId := 0 }
        { Transform.ctor with localPosition := ⟨7, 7, 7⟩ } =
      some (⟨0, 0, 0⟩,
        { Transform.ctor with localPosition := ⟨7, 7, 7⟩, dirty := false },
        { nodes := [], nextId := 0 }) ∧
    ({ Transform.ctor with localPosition := ⟨7, 7, 7⟩ } : Transform).localPosition ≠
      (⟨0, 0, 0⟩ : Vec3) :=
  ⟨world_getter_expired_owner 3 Sel.pos _ _ rfl rfl, by decide⟩

/-- Claim C2: for a Transform whose owner locks to a node with a parent that
has a Transform, `UpdateWorldTransform` first forces the parent's own world
triple (one recompute settles all three sequential getter calls: after the
first, the parent is clean and the other two return its cache, so the heap
comes out of the first call) and combines:
world position is parent world position plus local position times parent
world scale component-wise, world rotation is the component-wise sum, world
scale the component-wise product.  When the owner locks but the node has no
(live) parent, or the parent has no Transform, the world values are set to
the local values directly. -/
theorem updateWorldTransform_parent_formula (fuel : Nat) (s : Store) (t : Transform)
    (nid : Nat) (node : Node) (hown : t.owner = some nid) (hn : s.find? nid = some node) :
    (∀ pid pnode pt, node.parent = some pid → s.find? pid = some pnode →
        pnode.transform? = some pt →
        ∀ t' s', updateWorldTransform fuel s t = some (t', s') →
        ∃ pnode' pt', s'.find? pid = some pnode' ∧ pnode'.transform? = some pt' ∧
          pt'.dirty = false ∧
          getWorldAt fuel Sel.pos s pid = some (pt'.worldPosition, s') ∧
          t' = { t with
                 worldPosition := vadd pt'.worldPosition (vmulc t.localPosition pt'.worldScale)
                 worldRotation := vadd pt'.worldRotation t.localRotation
                 worldScale := vmulc pt'.worldScale t.localScale
                 dirty := false }) ∧
    ((node.parent.bind s.find? = none ∨
      (∃ pid pnode, node.parent = some pid ∧ s.find? pid = some pnode ∧
        pnode.transform? = none)) →
      updateWorldTransform fuel s t = some (worldFromLocal t, s)) := by
  have hbind : t.owner.bind s.find? = some node := by rw [hown]; exact hn
  constructor
  · intro pid pnode pt hpar hpn hpt t' s' h
    unfold updateWorldTransform updateWorldWith at h
    simp only [hbind, hpar, hpn, hpt] at h
    cases h1 : getWorldAt fuel Sel.pos s pid with
    | none => rw [h1] at h; cases h
    | some r₁ =>
      obtain ⟨pwp, s₁⟩ := r₁
      cases fuel with
      | zero => simp [getWorldAt] at h1
      | succ f =>
        obtain ⟨node₁, t₁, hn1, ht1, hd1, hv1⟩ :=
          getWorldAt_post (f + 1) Sel.pos s pid pwp s₁ h1
        have h2 := getWorldAt_clean f Sel.rot s₁ pid node₁ t₁ hn1 ht1 hd1
        have h3 := getWorldAt_clean f Sel.scl s₁ pid node₁ t₁ hn1 ht1 hd1
        rw [h1] at h
        simp only [h2, h3] at h
        injection h with hts
        injection hts with ht' hs'
        subst ht'
        subst hs'
        subst hv1
        refine ⟨node₁, t₁, hn1, ht1, hd1, ?_, ?_⟩
        · rfl
        · rfl
  · intro hcase
    unfold updateWorldTransform updateWorldWith
    simp only [hbind]
    rcases hcase with hnone | ⟨pid, pnode, hpar, hpn, hpt⟩
    · cases hpar : node.parent with
      | none => rfl
      | some pid =>
        rw [hpar] at hnone
        simp at hnone
        simp [hnone]
    · simp [hpar, hpn, hpt]

/-- Concrete heap for the C2 witness (the spec's own worked example):
parent P with local position `(1,2,3)` and local scale `(2,2,2)` (a root, so
these become its world values), child C with local position `(1,0,0)` and
local scale `(1,1,1)`; both Transforms carry working owner references, both
dirty. -/
def exTP : Transform :=
  { localPosition := ⟨1, 2, 3⟩
    localRotation := ⟨0, 0, 0⟩
    localScale := ⟨2, 2, 2⟩
    dirty := true
    worldPosition := ⟨0, 0, 0⟩
    worldRotation := ⟨0, 0, 0⟩
    worldScale := ⟨1, 1, 1⟩
    owner := some 0 }

def exTC : Transform :=
  { localPosition := ⟨1, 0, 0⟩
    localRotation := ⟨0, 0, 0⟩
    localScale := ⟨1, 1, 1⟩
    dirty := true
    worldPosition := ⟨0, 0, 0⟩
    worldRotation := ⟨0, 0, 0⟩
    worldScale := ⟨1, 1, 1⟩
    owner := some 1 }

def exNodeP : Node :=
  { name := "P", parent := none, children := [1], active := true, transform? := some exTP }

def exNodeC : Node :=
  { name := "C", parent := some 0, children := [], active := true, transform? := some exTC }

def exStore : Store := { nodes := [(0, exNodeP), (1, exNodeC)], nextId := 2 }

unseal Rat.add Rat.mul in
/-- Witness for C2 on the spec example: C's world position comes out
`(3,2,3)`, rotation `(0,0,0)`, scale `(2,2,2)`. -/
theorem updateWorldTransform_parent_formula_witness :
    ∃ pnode' pt',
      (exStore.setTransform 0 (worldFromLocal exTP)).find? 0 = some pnode' ∧
      pnode'.transform? = some pt' ∧ pt'.dirty = false ∧
      getWorldAt 1 Sel.pos exStore 0 =
        some (pt'.worldPosition, exStore.setTransform 0 (worldFromLocal exTP)) ∧
      ({ exTC with
         worldPosition := ⟨3, 2, 3⟩
         worldRotation := ⟨0, 0, 0⟩
         worldScale := ⟨2, 2, 2⟩
         dirty := false } : Transform) =
        { exTC with
          worldPosition := vadd pt'.worldPosition (vmulc exTC.localPosition pt'.worldScale)
          worldRotation := vadd pt'.worldRotation exTC.localRotation
          worldScale := vmulc pt'.worldScale exTC.localScale
          dirty := false } :=
  (updateWorldTransform_parent_formula 1 exStore exTC 1 exNodeC rfl rfl).1
    0 exNodeP exTP rfl rfl rfl
    { exTC with
      worldPosition := ⟨3, 2, 3⟩
      worldRotation := ⟨0, 0, 0⟩
      worldScale := ⟨2, 2, 2⟩
      dirty := false }
    (exStore.setTransform 0 (worldFromLocal exTP))
    (by decide)

/-- The C3 failing input, built through the public API: `P = CreateNode("P")`
(id 0), `C = CreateNode(P, "C")` (id 1), then one ordinary world-getter call
on C's Transform so that its cache is clean, then the call under test,
`P.GetTransform()->SetLocalPosition((5,0,0))`.  The pipeline records, in
order: C's dirty flag before the call, P's dirty flag after the call, C's
dirty flag after the call, the value C's next world-position getter returns
after the call, and P's children. -/
def c3Result : Option (Bool × Bool × Bool × Vec3 × List Nat) :=
  ((Scene.empty.createNode "P").1.createNodeUnder 2 (some 0) "C").bind fun x =>
  (getWorldAt 2 Sel.pos x.1.store x.2).bind fun y =>
  ((y.2.find? x.2).bind (·.transform?)).bind fun tC =>
  (setLocalPositionAt y.2 0 ⟨5, 0, 0⟩).bind fun s₂ =>
  ((s₂.find? 0).bind (·.transform?)).bind fun tP =>
  ((s₂.find? x.2).bind (·.transform?)).bind fun tC' =>
  (getWorldAt 2 Sel.pos s₂ x.2).bind fun z =>
  (s₂.find? 0).map fun nP =>
  (tC.dirty, tP.dirty, tC'.dirty, z.1, nP.children)

/-- Claim C3 (code bug): P and C both carry Transforms and C is a direct
child of P, yet `SetLocalPosition` on P's Transform leaves C's dirty flag
`false` and C's next world getter returns its stale cached world position
`(0,0,0)` without recomputing — the claim (and the source comment "Mark
children as dirty") requires C to be marked dirty.  The setter's child loop
is dead for every constructor-created node because the Transform's owner
reference was seeded from `weak_from_this()` inside the `Node` constructor,
where it is still empty. -/
theorem dirty_propagation_owner_bug :
    c3Result = some (false, true, false, ⟨0, 0, 0⟩, [1]) := by decide

/-- Concrete two-node heap for C6/C7-style counterexamples: `P = CreateNode("P")`
(id 0), `C = CreateNode(P, "C")` (id 1), built through the public API. -/
def pcStore : Store :=
  (((Scene.empty.createNode "P").1.createNodeUnder 2 (some 0) "C").map
    (fun x => x.1.store)).getD { nodes := [], nextId := 0 }

/-- Counterexample to C6: on the concrete heap with C (id 1) a child of P
(id 0), `C->SetParent(nullptr)` erases C from P's children but leaves C's
parent reference pointing at P, so `C->GetParent()` afterwards returns P, not
null — while `RemoveParent` resets the reference.  The two calls produce
different heaps, refuting the claimed equivalence. -/
theorem setParent_null_cex :
    ((setParent 2 pcStore 1 none).bind fun s' =>
      (s'.find? 1).map fun n =>
        (n.parent, nodeGetParent s' n, (s'.find? 0).map (·.children))) =
      some (some 0, some 0, some []) ∧
    ((removeParent pcStore 1).bind fun s' =>
      (s'.find? 1).map fun n => (n.parent, nodeGetParent s' n)) =
      some (none, none) ∧
    setParent 2 pcStore 1 none ≠ removeParent pcStore 1 := by
  refine ⟨by decide, by decide, by decide⟩

/-- Claim C6 as amended: `SetParent(null)` removes the Node from its live
parent's children list, but — unlike `RemoveParent` — does not clear the
Node's parent reference: the parent field is unchanged and `GetParent()`
afterwards returns exactly what it returned before the call (the old parent,
as long as it is alive).  `RemoveParent` leaves `GetParent()` null. -/
theorem setParent_null_keeps_parent_ref (fuel : Nat) (s : Store) (nid : Nat)
    (node : Node) (hn : s.find? nid = some node) :
    ∃ s', setParent fuel s nid none = some s' ∧
      (∀ node', s'.find? nid = some node' →
        node'.parent = node.parent ∧ nodeGetParent s' node' = nodeGetParent s node) ∧
      (∀ pid pnode, node.parent = some pid → s.find? pid = some pnode →
        ∃ pnode', s'.find? pid = some pnode' ∧
          pnode'.children = pnode.children.filter (· ≠ nid)) ∧
      (∀ s'' node'', removeParent s nid = some s'' → s''.find? nid = some node'' →
        nodeGetParent s'' node'' = none) := by
  have hmapconst : ∀ (p : Nat) (o o' : Option Node), o.isSome = o'.isSome →
      o.map (fun _ => p) = o'.map (fun _ => p) := by
    intro p o o' h
    cases o <;> cases o' <;> simp at h ⊢
  cases hlock : node.parent.bind s.find? with
  | none =>
    have hsp : setParent fuel s nid none = some s := by
      simp only [setParent, hn]
      cases hpar : node.parent with
      | none => rfl
      | some pid =>
        rw [hpar] at hlock
        simp only [Option.some_bind] at hlock
        simp [hlock]
    refine ⟨s, hsp, ?_, ?_, ?_⟩
    · intro node' hn'
      rw [hn] at hn'
      cases hn'
      exact ⟨rfl, rfl⟩
    · intro pid pnode hpar hpn
      rw [hpar] at hlock
      simp only [Option.some_bind] at hlock
      rw [hlock] at hpn
      cases hpn
    · intro s'' node'' hrm hn''
      simp only [removeParent, hn] at hrm
      cases hpar : node.parent with
      | none =>
        rw [hpar] at hrm
        simp only [Option.none_bind] at hrm
        cases hrm
        rw [hn] at hn''
        cases hn''
        simp [nodeGetParent, hpar]
      | some pid =>
        rw [hpar] at hlock
        simp only [Option.some_bind] at hlock
        rw [hpar] at hrm
        simp only [Option.some_bind, hlock, Option.map_none] at hrm
        cases hrm
        rw [hn] at hn''
        cases hn''
        simp [nodeGetParent, hpar, hlock]
  | some pnode₀ =>
    cases hpar : node.parent with
    | none => rw [hpar] at hlock; cases hlock
    | some pid =>
      rw [hpar] at hlock
      simp only [Option.some_bind] at hlock
      have hpn : s.find? pid = some pnode₀ := hlock
      have hsp : setParent fuel s nid none =
          some (s.set pid { pnode₀ with children := pnode₀.children.filter (· ≠ nid) }) := by
        simp only [setParent, hn, hpar]
        simp [hpn]
      refine ⟨_, hsp, ?_, ?_, ?_⟩
      · intro node' hn'
        rw [Store.find?_set] at hn'
        by_cases hpe : pid = nid
        · subst hpe
          rw [if_pos rfl, hn] at hn'
          have hpeq : pnode₀ = node := by
            rw [hn] at hpn; exact (Option.some.inj hpn).symm
          subst hpeq
          injection hn' with hn'e
          subst hn'e
          refine ⟨hpar, ?_⟩
          simp only [nodeGetParent, hpar, Option.some_bind]
          exact hmapconst pid _ _ (Store.find?_isSome_set s pid _ pid)
        · rw [if_neg hpe, hn] at hn'
          cases hn'
          refine ⟨hpar, ?_⟩
          simp only [nodeGetParent, hpar, Option.some_bind]
          exact hmapconst pid _ _ (Store.find?_isSome_set s pid _ pid)
      · intro pid' pnode' hpar' hpn'
        injection hpar' with hpe
        subst hpe
        rw [hpn] at hpn'
        cases hpn'
        refine ⟨{ pnode₀ with children := pnode₀.children.filter (· ≠ nid) }, ?_, rfl⟩
        rw [Store.find?_set, if_pos rfl, hpn]
        rfl
      · intro s'' node'' hrm hn''
        simp only [removeParent, hn, hpar, Option.some_bind, hpn, Option.map_some'] at hrm
        set s₁ := s.set pid { pnode₀ with children := pnode₀.children.filter (· ≠ nid) }
          with hs₁
        have hs₁n : ∃ node₁, s₁.find? nid = some node₁ := by
          have hiso := Store.find?_isSome_set s pid
            { pnode₀ with children := pnode₀.children.filter (· ≠ nid) } nid
          rw [hn] at hiso
          simp only [Option.isSome_some] at hiso
          rw [← hs₁] at hiso
          cases hx : s₁.find? nid with
          | none => rw [hx] at hiso; simp at hiso
          | some node₁ => exact ⟨node₁, rfl⟩
        obtain ⟨node₁, hn₁⟩ := hs₁n
        simp only [hn₁] at hrm
        cases hrm
        rw [Store.find?_set, if_pos rfl, hn₁] at hn''
        injection hn'' with hn''e
        subst hn''e
        simp [nodeGetParent]

/-- Two roots both named "A", built through the public API (`CreateNode("A")`
twice): ids 0 and 1, pre-order `[0, 1]`. -/
def twoA : Scene := ((Scene.empty.createNode "A").1.createNode "A").1

/-- Counterexample to C5: on a scene with two roots named "A", the pre-order
snapshot is `[0, 1]` and node 0 already matches, yet `FindNodeByName("A")`
returns node 1 — the callback overwrites `result` on every match, so the
LAST match wins, not the first. -/
theorem findNodeByName_first_cex :
    collectAllNodes 1 twoA = some [0, 1] ∧
    (twoA.store.find? 0).map (·.name) = some "A" ∧
    findNodeByName 1 twoA "A" = some (some 1) ∧
    findNodeByName 1 twoA "A" ≠ some (some 0) :=
  ⟨by decide, by decide, by decide, by decide⟩

/-- Last pre-order match, written from the amended claim's words: the last
identifier in the traversal snapshot whose node's name equals the query. -/
def lastMatch (s : Store) (name : String) (ids : List Nat) : Option Nat :=
  (ids.filter fun i =>
    match s.find? i with
    | some node => decide (node.name = name)
    | none => false).getLast?

/-- First-of-two choice on optional results (the overwrite semantics of the
`FindNodeByName` fold, read backwards). -/
def oElse (o b : Option Nat) : Option Nat :=
  match o with
  | some x => some x
  | none => b

theorem oElse_none (o : Option Nat) : oElse o none = o := by
  cases o <;> rfl

theorem getLast?_cons_oElse (a : Nat) (l : List Nat) :
    (a :: l).getLast? = oElse l.getLast? (some a) := by
  induction l generalizing a with
  | nil => rfl
  | cons b m ih =>
    rw [List.getLast?_cons_cons, ih b]
    cases hm : m.getLast? with
    | none => simp [oElse]
    | some x => simp [oElse]

theorem findFold_eq_lastMatch (s : Store) (name : String) :
    ∀ (ids : List Nat) (r₀ : Option Nat),
      ids.foldl (fun r nid =>
        match s.find? nid with
        | some node => if node.name = name then some nid else r
        | none => r) r₀ =
      oElse (lastMatch s name ids) r₀ := by
  intro ids
  induction ids with
  | nil => intro r₀; rfl
  | cons a l ih =>
    intro r₀
    simp only [List.foldl_cons]
    cases hf : s.find? a with
    | none =>
      have hp : (fun i => match s.find? i with
          | some node => decide (node.name = name)
          | none => false) a = false := by simp only [hf]
      have hlm : lastMatch s name (a :: l) = lastMatch s name l := by
        unfold lastMatch
        rw [List.filter_cons, if_neg (by simp [hp])]
      rw [hlm]
      simp only [hf]
      exact ih r₀
    | some node =>
      by_cases hname : node.name = name
      · have hp : (fun i => match s.find? i with
            | some node => decide (node.name = name)
            | none => false) a = true := by simp only [hf]; simp [hname]
        have hlm : lastMatch s name (a :: l) = oElse (lastMatch s name l) (some a) := by
          unfold lastMatch
          rw [List.filter_cons, if_pos (by simp [hp])]
          exact getLast?_cons_oElse a (List.filter
            (fun i => match s.find? i with
              | some node => decide (node.name = name)
              | none => false) l)
        rw [hlm]
        simp only [hf, if_pos hname]
        rw [ih (some a)]
        cases lastMatch s name l <;> rfl
      · have hp : (fun i => match s.find? i with
            | some node => decide (node.name = name)
            | none => false) a = false := by simp only [hf]; simp [hname]
        have hlm : lastMatch s name (a :: l) = lastMatch s name l := by
          unfold lastMatch
          rw [List.filter_cons, if_neg (by simp [hp])]
        rw [hlm]
        simp only [hf, if_neg hname]
        exact ih r₀

/-- Claim C5 as amended: `FindNodeByName` traverses the pre-order snapshot
and returns the LAST node whose name equals the query (each match overwrites
the previous result), null when no reachable node matches. -/
theorem findNodeByName_last_match (fuel : Nat) (sc : Scene) (name : String)
    (ids : List Nat) (hc : collectAllNodes fuel sc = some ids) :
    findNodeByName fuel sc name = some (lastMatch sc.store name ids) := by
  unfold findNodeByName
  simp only [hc]
  rw [findFold_eq_lastMatch sc.store name ids none, oElse_none]

/-- Witness for the amended C5 on the two-roots-named-"A" scene: the result
is the last match, node 1. -/
theorem findNodeByName_last_match_witness :
    findNodeByName 1 twoA "A" = some (lastMatch twoA.store "A" [0, 1]) ∧
    lastMatch twoA.store "A" [0, 1] = some 1 :=
  ⟨findNodeByName_last_match 1 twoA "A" [0, 1] (by decide), by decide⟩

/-- Witness for the amended C6 on the concrete two-node heap. -/
theorem setParent_null_keeps_parent_ref_witness :
    ∃ s', setParent 2 pcStore 1 none = some s' ∧
      (∀ node', s'.find? 1 = some node' →
        node'.parent = ((pcStore.find? 1).getD (Node.ctor "C")).parent ∧
        nodeGetParent s' node' = nodeGetParent pcStore ((pcStore.find? 1).getD (Node.ctor "C"))) ∧
      (∀ pid pnode, ((pcStore.find? 1).getD (Node.ctor "C")).parent = some pid →
        pcStore.find? pid = some pnode →
        ∃ pnode', s'.find? pid = some pnode' ∧
          pnode'.children = pnode.children.filter (· ≠ 1)) ∧
      (∀ s'' node'', removeParent pcStore 1 = some s'' → s''.find? 1 = some node'' →
        nodeGetParent s'' node'' = none) :=
  setParent_null_keeps_parent_ref 2 pcStore 1 ((pcStore.find? 1).getD (Node.ctor "C"))
    (by decide)

/-
Helpers for the `SetParent` reparenting analysis (claim C8).
-/

theorem setTransformIn_setTransformIn (l : List (Nat × Node)) (i : Nat) (t t' : Transform) :
    setTransformIn (setTransformIn l i t) i t' = setTransformIn l i t' := by
  induction l with
  | nil => rfl
  | cons hd tl ih =>
    obtain ⟨k, n⟩ := hd
    by_cases hk : k = i
    · simp [setTransformIn, hk, ih]
    · simp [setTransformIn, hk, ih]

theorem Store.setTransform_setTransform (s : Store) (i : Nat) (t t' : Transform) :
    (s.setTransform i t).setTransform i t' = s.setTransform i t' := by
  simp [Store.setTransform, setTransformIn_setTransformIn]

/-- A world getter on the Transform of node `nid` whose owner reference is
empty, dirty case: the cached field is returned and only the flag clears. -/
theorem getWorldAt_ownerless_dirty (fuel : Nat) (sel : Sel) (σ : Store) (nid : Nat)
    (m : Node) (u : Transform) (hm : σ.find? nid = some m) (hu : m.transform? = some u)
    (hown : u.owner = none) (hd : u.dirty = true) :
    getWorldAt (fuel + 1) sel σ nid =
      some (selWorld sel u, σ.setTransform nid { u with dirty := false }) := by
  unfold getWorldAt
  simp only [hm, hu, hd, if_true]
  simp only [updateWorldWith, hown, Option.none_bind]
  cases sel <;> rfl

/-- A world getter on a clean Transform of node `nid`: cached field, heap
untouched (no owner required). -/
theorem getWorldAt_ownerless_clean (fuel : Nat) (sel : Sel) (σ : Store) (nid : Nat)
    (m : Node) (u : Transform) (hm : σ.find? nid = some m) (hu : m.transform? = some u)
    (hd : u.dirty = false) :
    getWorldAt (fuel + 1) sel σ nid = some (selWorld sel u, σ) := by
  unfold getWorldAt
  simp only [hm, hu, hd]
  simp

theorem setLocalPositionAt_ownerless (σ : Store) (nid : Nat) (m : Node)
    (u : Transform) (v : Vec3) (hm : σ.find? nid = some m)
    (hu : m.transform? = some u) (hown : u.owner = none) :
    setLocalPositionAt σ nid v =
      some (σ.setTransform nid { u with localPosition := v, dirty := true }) := by
  unfold setLocalPositionAt Transform.setLocalPosition
  simp only [hm, hu, hown, Option.none_bind]

theorem setLocalRotationAt_ownerless (σ : Store) (nid : Nat) (m : Node)
    (u : Transform) (v : Vec3) (hm : σ.find? nid = some m)
    (hu : m.transform? = some u) (hown : u.owner = none) :
    setLocalRotationAt σ nid v =
      some (σ.setTransform nid { u with localRotation := v, dirty := true }) := by
  unfold setLocalRotationAt Transform.setLocalRotation
  simp only [hm, hu, hown, Option.none_bind]

theorem setLocalScaleAt_ownerless (σ : Store) (nid : Nat) (m : Node)
    (u : Transform) (v : Vec3) (hm : σ.find? nid = some m)
    (hu : m.transform? = some u) (hown : u.owner = none) :
    setLocalScaleAt σ nid v =
      some (σ.setTransform nid { u with localScale := v, dirty := true }) := by
  unfold setLocalScaleAt Transform.setLocalScale
  simp only [hm, hu, hown, Option.none_bind]

theorem find?_setTransform_self (σ : Store) (nid : Nat) (m : Node) (u : Transform)
    (hm : σ.find? nid = some m) :
    (σ.setTransform nid u).find? nid = some { m with transform? := some u } := by
  rw [Store.find?_setTransform, if_pos rfl, hm]
  rfl

/-- The reparenting juggle on a Transform with an empty owner reference: no
getter recomputes anything, so the three cached world values are copied into
the local fields verbatim; the net heap effect is that single component
rewrite. -/
theorem transformJuggle_ownerless (fuel : Nat) (σ : Store) (nid : Nat) (m : Node)
    (u : Transform) (hm : σ.find? nid = some m) (hu : m.transform? = some u)
    (hown : u.owner = none) :
    transformJuggle (fuel + 1) σ nid =
      some (σ.setTransform nid
        { u with localPosition := u.worldPosition, localRotation := u.worldRotation,
                 localScale := u.worldScale, dirty := true }) := by
  have h5 := find?_setTransform_self σ nid m
    ({ u with localPosition := u.worldPosition, dirty := true }) hm
  have hC := getWorldAt_ownerless_dirty fuel Sel.rot _ nid _ _ h5 rfl hown rfl
  rw [Store.setTransform_setTransform] at hC
  have h6 := find?_setTransform_self σ nid m
    ({ u with localPosition := u.worldPosition, dirty := false }) hm
  have hD := setLocalRotationAt_ownerless _ nid _ _ u.worldRotation h6 rfl hown
  rw [Store.setTransform_setTransform] at hD
  have h7 := find?_setTransform_self σ nid m
    ({ u with localPosition := u.worldPosition, localRotation := u.worldRotation,
              dirty := true }) hm
  have hE := getWorldAt_ownerless_dirty fuel Sel.scl _ nid _ _ h7 rfl hown rfl
  rw [Store.setTransform_setTransform] at hE
  have h8 := find?_setTransform_self σ nid m
    ({ u with localPosition := u.worldPosition, localRotation := u.worldRotation,
              dirty := false }) hm
  have hF := setLocalScaleAt_ownerless _ nid _ _ u.worldScale h8 rfl hown
  rw [Store.setTransform_setTransform] at hF
  by_cases hd : u.dirty
  case pos =>
    have hA := getWorldAt_ownerless_dirty fuel Sel.pos σ nid m u hm hu hown hd
    have h4 := find?_setTransform_self σ nid m ({ u with dirty := false }) hm
    have hB := setLocalPositionAt_ownerless _ nid _ _ u.worldPosition h4 rfl hown
    rw [Store.setTransform_setTransform] at hB
    unfold transformJuggle
    simp [hA, selWorld, hB, hC, hD, hE, hF]
  case neg =>
    rw [Bool.not_eq_true] at hd
    have hA := getWorldAt_ownerless_clean fuel Sel.pos σ nid m u hm hu hd
    have hB := setLocalPositionAt_ownerless σ nid m u u.worldPosition hm hu hown
    unfold transformJuggle
    simp [hA, selWorld, hB, hC, hD, hE, hF]

/-- `setParentAttach` on a node whose Transform has an empty owner reference:
the parent link is switched, the node is appended to the new parent's
children when absent, and the local fields become the cached world triple. -/
theorem setParentAttach_ownerless (fuel : Nat) (s₁ : Store) (nid np : Nat)
    (node₁ npn₁ : Node) (t : Transform)
    (hn₁ : s₁.find? nid = some node₁) (ht₁ : node₁.transform? = some t)
    (hown : t.owner = none) (hnp₁ : s₁.find? np = some npn₁) (hne : np ≠ nid) :
    ∃ s' node', setParentAttach (fuel + 1) s₁ nid np = some s' ∧
      s'.find? nid = some node' ∧ node'.parent = some np ∧
      node'.transform? = some
        { t with localPosition := t.worldPosition, localRotation := t.worldRotation,
                 localScale := t.worldScale, dirty := true } := by
  have hne' : nid ≠ np := fun h => hne h.symm
  obtain ⟨nm₁, pr₁, ch₁, ac₁, tf₁⟩ := node₁
  have htf : tf₁ = some t := ht₁
  subst htf
  have h2nid : (s₁.set nid ⟨nm₁, some np, ch₁, ac₁, some t⟩).find? nid =
      some ⟨nm₁, some np, ch₁, ac₁, some t⟩ := by
    rw [Store.find?_set, if_pos rfl, hn₁]; rfl
  have h2np : (s₁.set nid ⟨nm₁, some np, ch₁, ac₁, some t⟩).find? np = some npn₁ := by
    rw [Store.find?_set, if_neg hne']; exact hnp₁
  by_cases hct : npn₁.children.contains nid
  case pos =>
    have hJ := transformJuggle_ownerless fuel (s₁.set nid ⟨nm₁, some np, ch₁, ac₁, some t⟩)
      nid ⟨nm₁, some np, ch₁, ac₁, some t⟩ t h2nid rfl hown
    refine ⟨(s₁.set nid ⟨nm₁, some np, ch₁, ac₁, some t⟩).setTransform nid { t with localPosition := t.worldPosition, localRotation := t.worldRotation, localScale := t.worldScale, dirty := true }, ⟨nm₁, some np, ch₁, ac₁, some { t with localPosition := t.worldPosition, localRotation := t.worldRotation, localScale := t.worldScale, dirty := true }⟩, ?_, ?_, rfl, rfl⟩
    · have hctm : nid ∈ npn₁.children := by simpa using hct
      unfold setParentAttach
      simp [hnp₁, hn₁, h2np, hct, hctm, h2nid, hJ]
    · exact find?_setTransform_self _ nid ⟨nm₁, some np, ch₁, ac₁, some t⟩ _ h2nid
  case neg =>
    have h3nid : ((s₁.set nid ⟨nm₁, some np, ch₁, ac₁, some t⟩).set np
        { npn₁ with children := npn₁.children ++ [nid] }).find? nid =
        some ⟨nm₁, some np, ch₁, ac₁, some t⟩ := by
      rw [Store.find?_set, if_neg hne]
      exact h2nid
    have hJ := transformJuggle_ownerless fuel
      ((s₁.set nid ⟨nm₁, some np, ch₁, ac₁, some t⟩).set np
        { npn₁ with children := npn₁.children ++ [nid] })
      nid ⟨nm₁, some np, ch₁, ac₁, some t⟩ t h3nid rfl hown
    refine ⟨((s₁.set nid ⟨nm₁, some np, ch₁, ac₁, some t⟩).set np { npn₁ with children := npn₁.children ++ [nid] }).setTransform nid { t with localPosition := t.worldPosition, localRotation := t.worldRotation, localScale := t.worldScale, dirty := true }, ⟨nm₁, some np, ch₁, ac₁, some { t with localPosition := t.worldPosition, localRotation := t.worldRotation, localScale := t.worldScale, dirty := true }⟩, ?_, ?_, rfl, rfl⟩
    · have hctm : ¬ nid ∈ npn₁.children := by simpa using hct
      unfold setParentAttach
      simp [hnp₁, hn₁, h2np, hct, hctm, h3nid, hJ]
    · exact find?_setTransform_self _ nid ⟨nm₁, some np, ch₁, ac₁, some t⟩ _ h3nid

/-- Claim C8 as amended: `SetParent(newParent ≠ null)` rewrites the
Transform's local fields by getter calls made AFTER the parent link has been
switched.  For a Transform whose owner reference is empty — the case of every
Node built by the constructor — no getter can recompute, so the local fields
become exactly the CACHED world triple as of the moment of the call (shown
here); for a Transform with a working owner the getters recompute under the
NEW parent chain instead, so the rewritten locals need not equal the world
values at the moment of the call (see the counterexample). -/
theorem setParent_rewrites_locals (fuel : Nat) (s : Store) (nid np : Nat)
    (node npn : Node) (t : Transform)
    (hn : s.find? nid = some node) (ht : node.transform? = some t)
    (hown : t.owner = none) (hnp : s.find? np = some npn) (hne : np ≠ nid) :
    ∃ s' node', setParent (fuel + 1) s nid (some np) = some s' ∧
      s'.find? nid = some node' ∧ node'.parent = some np ∧
      node'.transform? = some
        { t with localPosition := t.worldPosition, localRotation := t.worldRotation,
                 localScale := t.worldScale, dirty := true } := by
  cases hlock : (node.parent.bind fun p => (s.find? p).map fun pn => (p, pn)) with
  | none =>
    obtain ⟨s', node', hsp, hfind, hpar', htf'⟩ :=
      setParentAttach_ownerless fuel s nid np node npn t hn ht hown hnp hne
    refine ⟨s', node', ?_, hfind, hpar', htf'⟩
    unfold setParent
    simp only [hn, hlock]
    exact hsp
  | some pp =>
    obtain ⟨pid, pnode⟩ := pp
    have hs₁nid : ∃ node₁, (s.set pid
        { pnode with children := pnode.children.filter (· ≠ nid) }).find? nid =
        some node₁ ∧ node₁.transform? = some t := by
      rw [Store.find?_set]
      by_cases hpe : pid = nid
      · subst hpe
        have hpn : s.find? pid = some pnode := by
          cases hp : node.parent with
          | none => rw [hp] at hlock; cases hlock
          | some q =>
            rw [hp] at hlock
            simp only [Option.some_bind] at hlock
            cases hq : s.find? q with
            | none => rw [hq] at hlock; cases hlock
            | some qq =>
              rw [hq] at hlock
              simp only [Option.map_some'] at hlock
              injection hlock with hl
              injection hl with hl1 hl2
              subst hl1
              subst hl2
              exact hq
        have hpeq : pnode = node := by
          rw [hn] at hpn; exact (Option.some.inj hpn).symm
        subst hpeq
        rw [if_pos rfl, hn]
        exact ⟨_, rfl, ht⟩
      · rw [if_neg hpe, hn]
        exact ⟨node, rfl, ht⟩
    obtain ⟨node₁, hn₁, ht₁⟩ := hs₁nid
    have hs₁np : ∃ npn₁, (s.set pid
        { pnode with children := pnode.children.filter (· ≠ nid) }).find? np =
        some npn₁ := by
      rw [Store.find?_set]
      by_cases hpe : pid = np
      · rw [if_pos hpe]
        rw [hpe] at *
        rw [hnp]
        exact ⟨_, rfl⟩
      · rw [if_neg hpe]
        exact ⟨npn, hnp⟩
    obtain ⟨npn₁, hnp₁⟩ := hs₁np
    obtain ⟨s', node', hsp, hfind, hpar', htf'⟩ :=
      setParentAttach_ownerless fuel _ nid np node₁ npn₁ t hn₁ ht₁ hown hnp₁ hne
    refine ⟨s', node', ?_, hfind, hpar', htf'⟩
    unfold setParent
    simp only [hn, hlock]
    exact hsp

/-- The C8 counterexample pipeline, built through the public API plus
post-construction `AddComponent<Transform>()` calls (which seed working owner
references): roots A (id 0) and B (id 1), C (id 2) under A; re-add Transforms
on all three; set A's local rotation to `(1,0,0)`; force C's world rotation
(getter returns `(1,0,0)` and cleans the cache); read C's world rotation once
more AT the moment of the reparent call; then `C->SetParent(B)`.  Records the
world rotation at the moment of the call and C's local rotation afterwards. -/
def c8Result : Option (Vec3 × Vec3) :=
  (((Scene.empty.createNode "A").1.createNode "B").1.createNodeUnder 2 (some 0) "C").bind
    fun x =>
  (addTransformComponent 2 x.1.store 0).bind fun s =>
  (addTransformComponent 2 s 1).bind fun s =>
  (addTransformComponent 2 s 2).bind fun s =>
  (setLocalRotationAt s 0 ⟨1, 0, 0⟩).bind fun s =>
  (getWorldAt 3 Sel.rot s 2).bind fun y =>
  (getWorldAt 3 Sel.rot y.2 2).bind fun y₂ =>
  (setParent 3 y₂.2 2 (some 1)).bind fun s₅ =>
  ((s₅.find? 2).bind (·.transform?)).map fun t => (y₂.1, t.localRotation)

unseal Rat.add Rat.mul in
/-- Counterexample to C8: at the moment of the `SetParent(B)` call C's world
rotation getter returns `(1,0,0)` (inherited from old parent A), but after the
call C's local rotation is `(0,0,0)` — the getters ran after the parent link
switched to B (world rotation `(0,0,0)`), not on the old chain as claimed. -/
theorem setParent_world_rewrite_cex :
    c8Result = some (⟨1, 0, 0⟩, ⟨0, 0, 0⟩) ∧ (⟨1, 0, 0⟩ : Vec3) ≠ ⟨0, 0, 0⟩ :=
  ⟨by decide, by decide⟩

/-- Witness for the amended C8 on the two-node API heap `pcStore` (P id 0,
C id 1, C's constructor-made Transform has an empty owner): re-attaching C
under P rewrites C's locals to its cached world triple. -/
theorem setParent_rewrites_locals_witness :
    ∃ s' node', setParent 3 pcStore 1 (some 0) = some s' ∧
      s'.find? 1 = some node' ∧ node'.parent = some 0 ∧
      node'.transform? = some
        { (((pcStore.find? 1).bind (·.transform?)).getD Transform.ctor) with
          localPosition :=
            (((pcStore.find? 1).bind (·.transform?)).getD Transform.ctor).worldPosition
          localRotation :=
            (((pcStore.find? 1).bind (·.transform?)).getD Transform.ctor).worldRotation
          localScale :=
            (((pcStore.find? 1).bind (·.transform?)).getD Transform.ctor).worldScale
          dirty := true } :=
  setParent_rewrites_locals 2 pcStore 1 0
    ((pcStore.find? 1).getD (Node.ctor "C"))
    ((pcStore.find? 0).getD (Node.ctor "P"))
    (((pcStore.find? 1).bind (·.transform?)).getD Transform.ctor)
    (by decide) (by decide) (by decide) (by decide) (by decide)

/-
Traversal congruence machinery for the active-flag cascade (claim C7).
-/

theorem optMap_congr {α β : Type} (f g : α → Option β) (l : List α)
    (h : ∀ a ∈ l, f a = g a) : optMap f l = optMap g l := by
  induction l with
  | nil => rfl
  | cons a l ih =>
    simp only [optMap]
    rw [h a (List.mem_cons_self _ _), ih fun a ha => h a (List.mem_cons_of_mem _ ha)]

theorem optMap_mem {α β : Type} (f : α → Option β) (l : List α) (ys : List β)
    (h : optMap f l = some ys) : ∀ a ∈ l, ∃ y, f a = some y ∧ y ∈ ys := by
  induction l generalizing ys with
  | nil => intro a ha; cases ha
  | cons b l ih =>
    intro a ha
    simp only [optMap] at h
    cases hb : f b with
    | none => rw [hb] at h; cases h
    | some y =>
      simp only [hb] at h
      cases hrest : optMap f l with
      | none => rw [hrest] at h; cases h
      | some ys' =>
        simp only [hrest] at h
        injection h with h
        subst h
        cases ha with
        | head => exact ⟨y, hb, List.mem_cons_self _ _⟩
        | tail _ ha =>
          obtain ⟨y', hy', hmem⟩ := ih ys' hrest a ha
          exact ⟨y', hy', List.mem_cons_of_mem _ hmem⟩

/-- Relation between a heap and the result of an active-flag sweep with
target `v`: every node is unchanged or has only its flag set to `v`. -/
def flagsRel (v : Bool) (s s' : Store) : Prop :=
  ∀ m, s'.find? m = s.find? m ∨
    ∃ n, s.find? m = some n ∧ s'.find? m = some { n with active := v }

theorem flagsRel_refl (v : Bool) (s : Store) : flagsRel v s s := fun _ => Or.inl rfl

theorem flagsRel_trans {v : Bool} {s₁ s₂ s₃ : Store}
    (h₁ : flagsRel v s₁ s₂) (h₂ : flagsRel v s₂ s₃) : flagsRel v s₁ s₃ := by
  intro m
  rcases h₂ m with h | ⟨n, hn, hn'⟩
  · rcases h₁ m with h' | ⟨n, hn, hn'⟩
    · exact Or.inl (h.trans h')
    · exact Or.inr ⟨n, hn, h.trans hn'⟩
  · rcases h₁ m with h' | ⟨n₀, hn₀, hn₀'⟩
    · exact Or.inr ⟨n, h'.symm.trans hn, hn'⟩
    · rw [hn₀'] at hn
      injection hn with hne
      subst hne
      exact Or.inr ⟨n₀, hn₀, hn'⟩

theorem flagsRel_set (v : Bool) (s : Store) (nid : Nat) (node : Node)
    (hn : s.find? nid = some node) :
    flagsRel v s (s.set nid { node with active := v }) := by
  intro m
  by_cases he : nid = m
  · subst he
    right
    refine ⟨node, hn, ?_⟩
    rw [Store.find?_set, if_pos rfl, hn]
    rfl
  · left
    rw [Store.find?_set, if_neg he]

/-- Children links (and presence) seen through a `flagsRel` evolution are
unchanged. -/
theorem flagsRel_kids {v : Bool} {s s' : Store} (h : flagsRel v s s') (m : Nat) :
    (s'.find? m).map (·.children) = (s.find? m).map (·.children) := by
  rcases h m with h' | ⟨n, hn, hn'⟩
  · rw [h']
  · rw [hn, hn']
    rfl

/-- `CollectAllNodes` depends only on the children links, so a flags-only
evolution leaves the traversal snapshot unchanged. -/
theorem collectFrom_congr_kids :
    ∀ (fuel : Nat) (s s' : Store),
      (∀ m, (s'.find? m).map (·.children) = (s.find? m).map (·.children)) →
      ∀ nid, collectFrom fuel s' nid = collectFrom fuel s nid := by
  intro fuel
  induction fuel with
  | zero => intro s s' h nid; rfl
  | succ fuel ih =>
    intro s s' h nid
    unfold collectFrom
    have hm := h nid
    cases hn : s.find? nid with
    | none =>
      rw [hn] at hm
      cases hn' : s'.find? nid with
      | none => rfl
      | some x => rw [hn'] at hm; cases hm
    | some node =>
      rw [hn] at hm
      cases hn' : s'.find? nid with
      | none => rw [hn'] at hm; cases hm
      | some node' =>
        rw [hn'] at hm
        simp only [Option.map_some'] at hm
        injection hm with hm
        simp only [hm]
        rw [optMap_congr _ _ node.children fun c _ => ih s s' h c]

/-- Congruence for the traversal and the observable view: two heaps that
agree on every identifier in the collect set of `nid` produce the same
snapshot and the same extracted tree. -/
theorem collect_extract_congr :
    ∀ (fuel : Nat) (s : Store) (nid : Nat) (ids : List Nat),
      collectFrom fuel s nid = some ids →
      ∀ s₂, (∀ m ∈ ids, s₂.find? m = s.find? m) →
      collectFrom fuel s₂ nid = some ids ∧ extract fuel s₂ nid = extract fuel s nid := by
  intro fuel
  induction fuel with
  | zero => intro s nid ids hc; cases hc
  | succ fuel ih =>
    intro s nid ids hc s₂ hag
    unfold collectFrom at hc
    split at hc
    · cases hc
    · rename_i node hn
      split at hc
      · cases hc
      · rename_i css hcs
        injection hc with hc
        subst hc
        have hnid : s₂.find? nid = some node := by
          rw [hag nid (List.mem_cons_self _ _), hn]
        have hsub : ∀ c ∈ node.children, ∀ m idsc, collectFrom fuel s c = some idsc →
            m ∈ idsc → m ∈ nid :: css.flatten := by
          intro c hcmem m idsc hcol hm
          obtain ⟨y, hy, hymem⟩ := optMap_mem _ _ _ hcs c hcmem
          rw [hcol] at hy
          injection hy with hy
          subst hy
          exact List.mem_cons_of_mem _ (List.mem_flatten.mpr ⟨idsc, hymem, hm⟩)
        have hpt : ∀ c ∈ node.children,
            collectFrom fuel s₂ c = collectFrom fuel s c ∧
            extract fuel s₂ c = extract fuel s c := by
          intro c hcmem
          obtain ⟨idsc, hcol, hymem⟩ := optMap_mem _ _ _ hcs c hcmem
          have hagc : ∀ m ∈ idsc, s₂.find? m = s.find? m := fun m hm =>
            hag m (hsub c hcmem m idsc hcol hm)
          obtain ⟨h1, h2⟩ := ih s c idsc hcol s₂ hagc
          exact ⟨h1.trans hcol.symm, h2⟩
        constructor
        · unfold collectFrom
          simp only [hnid]
          rw [optMap_congr _ _ node.children fun c hcmem => (hpt c hcmem).1, hcs]
        · unfold extract
          simp only [hnid, hn]
          rw [optMap_congr _ _ node.children fun c hcmem => (hpt c hcmem).2]

theorem treeSetActiveF_ofList (v : Bool) (ts : List PTree) :
    treeSetActiveF v (PForest.ofList ts) = PForest.ofList (ts.map (treeSetActive v)) := by
  induction ts with
  | nil => rfl
  | cons t ts ih => simp [PForest.ofList, treeSetActiveF, ih]

/-- Claim C7 as amended: `SetActive(v)` writes the flag and recurses into the
children, but a (sub)call on a node whose flag already equals the target
leaves that node's entire subtree untouched; on a scene whose reachable
identifiers are pairwise distinct the resulting observable tree is exactly
`treeSetActive v` of the original, the sweep touches nothing outside the
traversal snapshot (so a child attached after the call is unaffected), and
every change is a flag write of `v`. -/
theorem setActive_cascade_tree :
    ∀ (fuel : Nat) (s : Store) (nid : Nat) (ids : List Nat) (t : PTree) (v : Bool),
      collectFrom fuel s nid = some ids → ids.Nodup → extract fuel s nid = some t →
      ∃ s', setActive fuel s nid v = some s' ∧
        extract fuel s' nid = some (treeSetActive v t) ∧
        (∀ m, m ∉ ids → s'.find? m = s.find? m) ∧ flagsRel v s s' := by
  intro fuel
  induction fuel with
  | zero => intro s nid ids t v hc; cases hc
  | succ fuel ih =>
    intro s nid ids t v hc hnd he
    unfold collectFrom at hc
    split at hc
    · cases hc
    · rename_i node hn
      split at hc
      · cases hc
      · rename_i css hcs
        injection hc with hc
        subst hc
        unfold extract at he
        simp only [hn] at he
        split at he
        · cases he
        · rename_i ts hts
          injection he with he
          subst he
          by_cases hv : node.active = v
          · refine ⟨s, ?_, ?_, fun m _ => rfl, flagsRel_refl v s⟩
            · unfold setActive
              simp only [hn]
              rw [if_pos hv]
            · unfold extract
              simp only [hn, hts]
              simp [treeSetActive, hv]
          · have hnids := List.nodup_cons.mp hnd
            have hnidnotin : nid ∉ css.flatten := hnids.1
            have hnd' : css.flatten.Nodup := hnids.2
            have hfr₀ : flagsRel v s (s.set nid { node with active := v }) :=
              flagsRel_set v s nid node hn
            have hfind₁ : ∀ m, m ≠ nid →
                (s.set nid { node with active := v }).find? m = s.find? m := by
              intro m hm
              rw [Store.find?_set, if_neg fun h => hm h.symm]
            have aux : ∀ (cs : List Nat) (σ : Store) (idss : List (List Nat))
                (ts' : List PTree),
                optMap (fun c => collectFrom fuel σ c) cs = some idss →
                optMap (fun c => extract fuel σ c) cs = some ts' →
                idss.flatten.Nodup →
                ∃ σ', optFold (fun acc c => setActive fuel acc c v) σ cs = some σ' ∧
                  optMap (fun c => extract fuel σ' c) cs =
                    some (ts'.map (treeSetActive v)) ∧
                  (∀ m, m ∉ idss.flatten → σ'.find? m = σ.find? m) ∧
                  flagsRel v σ σ' := by
              intro cs
              induction cs with
              | nil =>
                intro σ idss ts' h1 h2 _
                injection h1 with h1
                injection h2 with h2
                subst h1
                subst h2
                exact ⟨σ, rfl, rfl, fun m _ => rfl, flagsRel_refl v σ⟩
              | cons c cs ihc =>
                intro σ idss ts' h1 h2 hndf
                simp only [optMap] at h1 h2
                split at h1
                · cases h1
                · rename_i idsc hcol
                  split at h1
                  · cases h1
                  · rename_i idss' hrest
                    injection h1 with h1
                    subst h1
                    split at h2
                    · cases h2
                    · rename_i tc hex
                      split at h2
                      · cases h2
                      · rename_i ts₁ hrest₂
                        injection h2 with h2
                        subst h2
                        rw [List.flatten_cons] at hndf
                        obtain ⟨hnd₁, hnd₂, hdisj⟩ := List.nodup_append.mp hndf
                        obtain ⟨σ₁, hsa, hex₁, hfr₁, hflags₁⟩ :=
                          ih σ c idsc tc v hcol hnd₁ hex
                        have hptc : ∀ c' ∈ cs,
                            collectFrom fuel σ₁ c' = collectFrom fuel σ c' ∧
                            extract fuel σ₁ c' = extract fuel σ c' := by
                          intro c' hcm
                          obtain ⟨idsc', hcol', hmem'⟩ := optMap_mem _ _ _ hrest c' hcm
                          have hag : ∀ m ∈ idsc', σ₁.find? m = σ.find? m := by
                            intro m hm
                            apply hfr₁
                            intro hmin
                            exact hdisj hmin (List.mem_flatten.mpr ⟨idsc', hmem', hm⟩)
                          obtain ⟨a, b⟩ := collect_extract_congr fuel σ c' idsc' hcol' σ₁ hag
                          exact ⟨a.trans hcol'.symm, b⟩
                        have hrest₁ : optMap (fun c' => collectFrom fuel σ₁ c') cs =
                            some idss' := by
                          rw [optMap_congr _ _ cs fun c' hcm => (hptc c' hcm).1]
                          exact hrest
                        have hrestE : optMap (fun c' => extract fuel σ₁ c') cs =
                            some ts₁ := by
                          rw [optMap_congr _ _ cs fun c' hcm => (hptc c' hcm).2]
                          exact hrest₂
                        obtain ⟨σ', hfold, hex', hfr', hflags'⟩ :=
                          ihc σ₁ idss' ts₁ hrest₁ hrestE hnd₂
                        refine ⟨σ', ?_, ?_, ?_, flagsRel_trans hflags₁ hflags'⟩
                        · simp only [optFold, hsa]
                          exact hfold
                        · have hcol₁ : collectFrom fuel σ₁ c = some idsc := by
                            rw [collectFrom_congr_kids fuel σ σ₁ (flagsRel_kids hflags₁) c]
                            exact hcol
                          have hagc : ∀ m ∈ idsc, σ'.find? m = σ₁.find? m := by
                            intro m hm
                            apply hfr'
                            intro hmin
                            exact hdisj hm hmin
                          have hEq :=
                            (collect_extract_congr fuel σ₁ c idsc hcol₁ σ' hagc).2
                          simp only [optMap, hEq, hex₁, hex', List.map_cons]
                        · intro m hm
                          rw [List.flatten_cons] at hm
                          have hm1 : m ∉ idsc := fun h => hm (List.mem_append_left _ h)
                          have hm2 : m ∉ idss'.flatten := fun h =>
                            hm (List.mem_append_right _ h)
                          rw [hfr' m hm2, hfr₁ m hm1]
            have hcol₁ : optMap (fun c => collectFrom fuel
                (s.set nid { node with active := v }) c) node.children = some css := by
              rw [optMap_congr _ _ node.children fun c _ =>
                collectFrom_congr_kids fuel s _ (flagsRel_kids hfr₀) c]
              exact hcs
            have hext₁ : optMap (fun c => extract fuel
                (s.set nid { node with active := v }) c) node.children = some ts := by
              have hpt : ∀ c ∈ node.children,
                  extract fuel (s.set nid { node with active := v }) c =
                  extract fuel s c := by
                intro c hcm
                obtain ⟨idsc, hcol, hmem⟩ := optMap_mem _ _ _ hcs c hcm
                have hag : ∀ m ∈ idsc,
                    (s.set nid { node with active := v }).find? m = s.find? m := by
                  intro m hm
                  refine hfind₁ m fun h => ?_
                  subst h
                  exact hnidnotin (List.mem_flatten.mpr ⟨idsc, hmem, hm⟩)
                exact (collect_extract_congr fuel s c idsc hcol _ hag).2
              rw [optMap_congr _ _ node.children fun c hcm => hpt c hcm]
              exact hts
            obtain ⟨σ', hfold, hex', hfr', hflags'⟩ :=
              aux node.children (s.set nid { node with active := v }) css ts
                hcol₁ hext₁ hnd'
            refine ⟨σ', ?_, ?_, ?_, flagsRel_trans hfr₀ hflags'⟩
            · unfold setActive
              simp only [hn]
              rw [if_neg hv]
              exact hfold
            · have hfin : σ'.find? nid = some { node with active := v } := by
                rw [hfr' nid hnidnotin, Store.find?_set, if_pos rfl, hn]
                rfl
              unfold extract
              simp only [hfin, hex']
              simp only [treeSetActive, if_neg hv, treeSetActiveF_ofList]
            · intro m hm
              have hm1 : m ≠ nid := fun h => hm (h ▸ List.mem_cons_self _ _)
              have hm2 : m ∉ css.flatten := fun h => hm (List.mem_cons_of_mem _ h)
              rw [hfr' m hm2, hfind₁ m hm1]

/-- A run refuting the unconditional cascade of the original claim: create
`P`, create `C` under it, call `SetActive(false)` on `C`, then create `G2`
under `C` (nodes are created active), then call `SetActive(false)` on `P`.
Recorded: the final active flags of `P`, `C`, `G2` and `G2`'s id. -/
def c7Result : Option (Bool × Bool × Bool × Nat) :=
  let (sc₁, pid) := Scene.empty.createNode "P"
  match Scene.createNodeUnder 9 sc₁ (some pid) "C" with
  | none => none
  | some (sc₂, cid) =>
    match setActive 9 sc₂.store cid false with
    | none => none
    | some st₃ =>
      match Scene.createNodeUnder 9 { sc₂ with store := st₃ } (some cid) "G2" with
      | none => none
      | some (sc₄, gid) =>
        match setActive 9 sc₄.store pid false with
        | none => none
        | some st₅ =>
          match st₅.find? pid, st₅.find? cid, st₅.find? gid with
          | some p, some c, some g => some (p.active, c.active, g.active, gid)
          | _, _, _ => none

/-- Counterexample to claim C7 as stated: after `P.SetActive(false)` with an
already-inactive child `C`, `C`'s still-active child `G2` remains active —
`SetActive` returns early when the flag already has the target value, so the
cascade does NOT reach every descendant. -/
theorem setActive_cascade_cex : c7Result = some (false, false, true, 2) := by
  decide

/-- A two-node store (`P` with child `C`, both active) used to instantiate
the amended cascade theorem. -/
def c7WitStore : Store :=
  { nodes := [(0, { Node.ctor "P" with children := [1] }),
              (1, { Node.ctor "C" with parent := some 0 })],
    nextId := 2 }

/-- The observable tree of `c7WitStore` rooted at `P`. -/
def c7WitTree : PTree :=
  PTree.node "P" true (some (⟨0, 0, 0⟩, ⟨0, 0, 0⟩, ⟨1, 1, 1⟩))
    (PForest.cons
      (PTree.node "C" true (some (⟨0, 0, 0⟩, ⟨0, 0, 0⟩, ⟨1, 1, 1⟩)) PForest.nil)
      PForest.nil)

theorem setActive_cascade_tree_witness :
    collectFrom 3 c7WitStore 0 = some [0, 1] ∧ ([0, 1] : List Nat).Nodup ∧
    extract 3 c7WitStore 0 = some c7WitTree ∧
    ∃ s', setActive 3 c7WitStore 0 false = some s' ∧
      extract 3 s' 0 = some (treeSetActive false c7WitTree) ∧
      (∀ m, m ∉ ([0, 1] : List Nat) → s'.find? m = c7WitStore.find? m) ∧
      flagsRel false c7WitStore s' :=
  ⟨by decide, by decide, by rfl,
    setActive_cascade_tree 3 c7WitStore 0 [0, 1] c7WitTree false
      (by decide) (by decide) (by rfl)⟩

/-
Deserialization infrastructure: a step-invariant principle for the option
fold, and the frame of `Node::Deserialize` (it writes only the receiver and
freshly allocated identifiers).
-/

theorem optFold_inv {σ α : Type} (P : σ → Prop) (f : σ → α → Option σ) :
    ∀ (l : List α),
      (∀ st a st', a ∈ l → f st a = some st' → P st → P st') →
      ∀ st st', optFold f st l = some st' → P st → P st' := by
  intro l
  induction l with
  | nil =>
    intro _ st st' h hP
    injection h with h
    subst h
    exact hP
  | cons a l ihl =>
    intro hstep st st' h hP
    simp only [optFold] at h
    split at h
    · cases h
    · rename_i st₁ hf
      exact ihl (fun st a' st' ha' => hstep st a' st' (List.mem_cons_of_mem _ ha'))
        st₁ st' h (hstep st a st₁ (List.mem_cons_self _ _) hf hP)

theorem findIn_some_key :
    ∀ (l : List (Nat × Node)) (i : Nat) (n : Node),
      findIn l i = some n → ∃ p ∈ l, p.1 = i := by
  intro l
  induction l with
  | nil => intro i n h; cases h
  | cons hd tl ihl =>
    intro i n h
    obtain ⟨k, m⟩ := hd
    by_cases hk : k = i
    · exact ⟨(k, m), List.mem_cons_self _ _, hk⟩
    · simp only [findIn, if_neg hk] at h
      obtain ⟨p, hp, hpe⟩ := ihl i n h
      exact ⟨p, List.mem_cons_of_mem _ hp, hpe⟩

theorem Store.find?_lt_nextId (s : Store) (i : Nat) (n : Node) (hwf : s.wf)
    (h : s.find? i = some n) : i < s.nextId := by
  obtain ⟨p, hp, hpe⟩ := findIn_some_key s.nodes i n h
  rw [← hpe]
  exact hwf p hp

/-- Frame of `Node::Deserialize`: it preserves heap sanity, never lowers the
allocation counter, and every previously allocated node other than the
receiver is untouched (all writes hit the receiver or fresh children). -/
theorem nodeDeserialize_frame :
    ∀ (fuel : Nat) (s : Store) (nid : Nat) (j : Json) (s' : Store),
      nodeDeserialize fuel s nid j = some s' → s.wf →
      s'.wf ∧ s.nextId ≤ s'.nextId ∧
      ∀ m, m ≠ nid → m < s.nextId → s'.find? m = s.find? m := by
  intro fuel
  induction fuel with
  | zero => intro s nid j s' h; cases h
  | succ fuel ih =>
    intro s nid j s' h hwf
    simp only [nodeDeserialize] at h
    split at h
    · cases h
    · rename_i node hn
      split at h
      · cases h
      · rename_i nm hnm
        split at h
        · cases h
        · rename_i ac hac
          split at h
          · cases h
          · rename_i comps hcomps
            split at h
            · cases h
            · rename_i s₂ hfold₁
              split at h
              · cases h
              · rename_i node₂ hn₂
                split at h
                · cases h
                · rename_i childJs hkids
                  have hP₁ : (s.set nid { node with name := nm, active := ac }).wf ∧
                      s.nextId ≤ (s.set nid { node with name := nm, active := ac }).nextId ∧
                      ∀ m, m ≠ nid → m < s.nextId →
                        (s.set nid { node with name := nm, active := ac }).find? m =
                          s.find? m := by
                    refine ⟨Store.wf_set _ _ _ hwf, Nat.le_refl _, fun m hm _ => ?_⟩
                    rw [Store.find?_set, if_neg fun hh => hm hh.symm]
                  have hP₂ : s₂.wf ∧ s.nextId ≤ s₂.nextId ∧
                      ∀ m, m ≠ nid → m < s.nextId → s₂.find? m = s.find? m := by
                    refine optFold_inv
                      (fun st => st.wf ∧ s.nextId ≤ st.nextId ∧
                        ∀ m, m ≠ nid → m < s.nextId → st.find? m = s.find? m)
                      _ comps ?_ _ s₂ hfold₁ hP₁
                    intro st cj st' _ hstep hP
                    obtain ⟨hw, hle, hfr⟩ := hP
                    split at hstep
                    · cases hstep
                    · rename_i ty hty
                      by_cases hT : ty = "Transform"
                      · rw [if_pos hT] at hstep
                        split at hstep
                        · rename_i t ht
                          split at hstep
                          · cases hstep
                          · rename_i d hd
                            split at hstep
                            · cases hstep
                            · rename_i t' ht'
                              injection hstep with hstep
                              subst hstep
                              refine ⟨Store.wf_setTransform _ _ _ hw, hle, fun m hm hlt => ?_⟩
                              rw [Store.find?_setTransform, if_neg fun hh => hm hh.symm]
                              exact hfr m hm hlt
                        · injection hstep with hstep
                          subst hstep
                          exact ⟨hw, hle, hfr⟩
                      · rw [if_neg hT] at hstep
                        injection hstep with hstep
                        subst hstep
                        exact ⟨hw, hle, hfr⟩
                  obtain ⟨hw₂, hle₂, hfr₂⟩ := hP₂
                  have hP₃ : (s₂.set nid { node₂ with children := [] }).wf ∧
                      s.nextId ≤ (s₂.set nid { node₂ with children := [] }).nextId ∧
                      ∀ m, m ≠ nid → m < s.nextId →
                        (s₂.set nid { node₂ with children := [] }).find? m = s.find? m := by
                    refine ⟨Store.wf_set _ _ _ hw₂, hle₂, fun m hm hlt => ?_⟩
                    rw [Store.find?_set, if_neg fun hh => hm hh.symm]
                    exact hfr₂ m hm hlt
                  refine optFold_inv
                    (fun st => st.wf ∧ s.nextId ≤ st.nextId ∧
                      ∀ m, m ≠ nid → m < s.nextId → st.find? m = s.find? m)
                    _ childJs ?_ _ s' h hP₃
                  intro st cj st' _ hstep hP
                  obtain ⟨hw, hle, hfr⟩ := hP
                  simp only [Store.alloc] at hstep
                  split at hstep
                  · cases hstep
                  · rename_i st₂ hrec
                    split at hstep
                    · cases hstep
                    · rename_i pn hpn
                      split at hstep
                      · cases hstep
                      · rename_i cn hcn
                        injection hstep with hstep
                        subst hstep
                        have hw₁ : ({ nodes := st.nodes ++ [(st.nextId, Node.ctor "Node")], nextId := st.nextId + 1 } : Store).wf :=
                          Store.wf_alloc st _ hw
                        obtain ⟨hwR, hleR, hfrR⟩ := ih _ st.nextId cj st₂ hrec hw₁
                        have hleR' : st.nextId + 1 ≤ st₂.nextId := hleR
                        refine ⟨?_, ?_, ?_⟩
                        · split
                          · exact Store.wf_set _ _ _ hwR
                          · exact Store.wf_set _ _ _ (Store.wf_set _ _ _ hwR)
                        · have h1 : s.nextId ≤ st₂.nextId :=
                            Nat.le_trans hle (Nat.le_trans (Nat.le_succ _) hleR')
                          have h2 : (if pn.children.contains st.nextId = true then st₂
                              else st₂.set nid { pn with children := pn.children ++ [st.nextId] }).nextId = st₂.nextId := by
                            split <;> rfl
                          rw [Store.nextId_set, h2]
                          exact h1
                        · intro m hm hlt
                          have hmcid : m ≠ st.nextId :=
                            Nat.ne_of_lt (Nat.lt_of_lt_of_le hlt hle)
                          have hfind₂ : st₂.find? m = st.find? m := by
                            rw [hfrR m hmcid
                                (Nat.lt_succ_of_lt (Nat.lt_of_lt_of_le hlt hle))]
                            exact Store.find?_alloc_old st (Node.ctor "Node") m hmcid
                          rw [Store.find?_set, if_neg fun hh => hmcid hh.symm]
                          split
                          · rw [hfind₂]
                            exact hfr m hm hlt
                          · rw [Store.find?_set, if_neg fun hh => hm hh.symm, hfind₂]
                            exact hfr m hm hlt

/-- `Node::Deserialize` keeps a Transform component on the receiver: the
rebuild of the component map re-inserts the existing Transform, the
`"Transform"` entries only overwrite its fields in place, and the child pass
writes other identifiers. -/
theorem nodeDeserialize_keeps_transform :
    ∀ (fuel : Nat) (s : Store) (nid : Nat) (j : Json) (s' : Store) (node : Node),
      nodeDeserialize fuel s nid j = some s' → s.wf →
      s.find? nid = some node → node.transform?.isSome = true →
      ∃ node', s'.find? nid = some node' ∧ node'.transform?.isSome = true := by
  intro fuel s nid j s' node h hwf hn hts
  cases fuel with
  | zero => cases h
  | succ fuel =>
    simp only [nodeDeserialize] at h
    simp only [hn] at h
    split at h
    · cases h
    · rename_i nm hnm
      split at h
      · cases h
      · rename_i ac hac
        split at h
        · cases h
        · rename_i comps hcomps
          split at h
          · cases h
          · rename_i s₂ hfold₁
            split at h
            · cases h
            · rename_i node₂ hn₂
              split at h
              · cases h
              · rename_i childJs hkids
                have hnidlt : nid < s.nextId := Store.find?_lt_nextId s nid node hwf hn
                have hQ₁ : (s.set nid { node with name := nm, active := ac }).wf ∧
                    s.nextId ≤ (s.set nid { node with name := nm, active := ac }).nextId ∧
                    ∃ nx, (s.set nid { node with name := nm, active := ac }).find? nid =
                      some nx ∧ nx.transform?.isSome = true := by
                  refine ⟨Store.wf_set _ _ _ hwf, Nat.le_refl _,
                    { node with name := nm, active := ac }, ?_, hts⟩
                  rw [Store.find?_set, if_pos rfl, hn]
                  rfl
                have hQ₂ := optFold_inv
                  (fun st => st.wf ∧ s.nextId ≤ st.nextId ∧
                    ∃ nx, st.find? nid = some nx ∧ nx.transform?.isSome = true)
                  _ comps ?_ _ s₂ hfold₁ hQ₁
                · obtain ⟨hw₂, hle₂, nx₂, hnx₂, hnxs₂⟩ := hQ₂
                  rw [hn₂] at hnx₂
                  have hnode₂ : node₂ = nx₂ := Option.some.inj hnx₂
                  have hQ₃ : (s₂.set nid { node₂ with children := [] }).wf ∧
                      s.nextId ≤ (s₂.set nid { node₂ with children := [] }).nextId ∧
                      ∃ nx, (s₂.set nid { node₂ with children := [] }).find? nid =
                        some nx ∧ nx.transform?.isSome = true := by
                    refine ⟨Store.wf_set _ _ _ hw₂, hle₂,
                      { node₂ with children := [] }, ?_, ?_⟩
                    · rw [Store.find?_set, if_pos rfl, hn₂]
                      rfl
                    · show node₂.transform?.isSome = true
                      rw [hnode₂]
                      exact hnxs₂
                  have hQ' := optFold_inv
                    (fun st => st.wf ∧ s.nextId ≤ st.nextId ∧
                      ∃ nx, st.find? nid = some nx ∧ nx.transform?.isSome = true)
                    _ childJs ?_ _ s' h hQ₃
                  · obtain ⟨_, _, node', hfin, hfins⟩ := hQ'
                    exact ⟨node', hfin, hfins⟩
                  · intro st cj st' _ hstep hP
                    obtain ⟨hw, hle, nx, hnx, hnxs⟩ := hP
                    simp only [Store.alloc] at hstep
                    split at hstep
                    · cases hstep
                    · rename_i st₂ hrec
                      split at hstep
                      · cases hstep
                      · rename_i pn hpn
                        split at hstep
                        · cases hstep
                        · rename_i cn hcn
                          injection hstep with hstep
                          subst hstep
                          have hw₁ : ({ nodes := st.nodes ++ [(st.nextId, Node.ctor "Node")], nextId := st.nextId + 1 } : Store).wf :=
                            Store.wf_alloc st _ hw
                          obtain ⟨hwR, hleR, hfrR⟩ :=
                            nodeDeserialize_frame fuel _ st.nextId cj st₂ hrec hw₁
                          have hnidne : nid ≠ st.nextId :=
                            Nat.ne_of_lt (Nat.lt_of_lt_of_le hnidlt hle)
                          have hfind₂ : st₂.find? nid = st.find? nid := by
                            rw [hfrR nid hnidne
                                (Nat.lt_succ_of_lt (Nat.lt_of_lt_of_le hnidlt hle))]
                            exact Store.find?_alloc_old st (Node.ctor "Node") nid hnidne
                          have hpn' : pn = nx := by
                            rw [hfind₂, hnx] at hpn
                            exact (Option.some.inj hpn).symm
                          refine ⟨?_, ?_, ?_⟩
                          · split
                            · exact Store.wf_set _ _ _ hwR
                            · exact Store.wf_set _ _ _ (Store.wf_set _ _ _ hwR)
                          · have h2 : (if pn.children.contains st.nextId = true then st₂ else st₂.set nid { pn with children := pn.children ++ [st.nextId] }).nextId = st₂.nextId := by
                              split <;> rfl
                            rw [Store.nextId_set, h2]
                            exact Nat.le_trans hle (Nat.le_trans (Nat.le_succ _) hleR)
                          · by_cases hcont : pn.children.contains st.nextId = true
                            · refine ⟨pn, ?_, by rw [hpn']; exact hnxs⟩
                              rw [Store.find?_set, if_neg fun hh => hnidne hh.symm,
                                if_pos hcont]
                              exact hpn
                            · refine ⟨{ pn with children := pn.children ++ [st.nextId] },
                                ?_, by rw [hpn']; exact hnxs⟩
                              rw [Store.find?_set, if_neg fun hh => hnidne hh.symm,
                                if_neg hcont, Store.find?_set, if_pos rfl, hpn]
                              rfl
                · intro st cj st' _ hstep hP
                  obtain ⟨hw, hle, nx, hnx, hnxs⟩ := hP
                  split at hstep
                  · cases hstep
                  · rename_i ty hty
                    by_cases hT : ty = "Transform"
                    · rw [if_pos hT] at hstep
                      split at hstep
                      · rename_i t ht
                        split at hstep
                        · cases hstep
                        · rename_i d hd
                          split at hstep
                          · cases hstep
                          · rename_i t' ht'
                            injection hstep with hstep
                            subst hstep
                            refine ⟨Store.wf_setTransform _ _ _ hw, hle,
                              { nx with transform? := some t' }, ?_, rfl⟩
                            rw [Store.find?_setTransform, if_pos rfl, hnx]
                            rfl
                      · injection hstep with hstep
                        subst hstep
                        exact ⟨hw, hle, nx, hnx, hnxs⟩
                    · rw [if_neg hT] at hstep
                      injection hstep with hstep
                      subst hstep
                      exact ⟨hw, hle, nx, hnx, hnxs⟩

/-- Claim C4: `HasComponent<Transform>()` is true immediately after
`Node::Node` (the constructor runs `AddComponent<Transform>()`), and it
remains true after any successful `Node::Deserialize` call on that node:
the component-map rebuild keeps the existing Transform, `"Transform"`
entries only overwrite its fields, and the child pass writes other nodes. -/
theorem node_hasTransform_ctor_and_deserialize :
    (∀ name, (Node.ctor name).hasTransformComp = true) ∧
    (∀ (fuel : Nat) (s : Store) (nid : Nat) (j : Json) (s' : Store) (node : Node),
      nodeDeserialize fuel s nid j = some s' → s.wf →
      s.find? nid = some node → node.hasTransformComp = true →
      ∃ node', s'.find? nid = some node' ∧ node'.hasTransformComp = true) := by
  constructor
  · intro name
    rfl
  · intro fuel s nid j s' node h hwf hn hts
    exact nodeDeserialize_keeps_transform fuel s nid j s' node h hwf hn hts

/-- A one-node heap and a component-free node document instantiating C4. -/
def c4WitStore : Store := { nodes := [(0, Node.ctor "W")], nextId := 1 }

def c4WitJson : Json :=
  Json.obj [("name", .str "N"), ("active", .jbool true),
            ("components", .arr []), ("children", .arr [])]

theorem node_hasTransform_witness :
    (Node.ctor "W").hasTransformComp = true ∧
    ∃ s', nodeDeserialize 2 c4WitStore 0 c4WitJson = some s' ∧
      ∃ node', s'.find? 0 = some node' ∧ node'.hasTransformComp = true := by
  have hs : (nodeDeserialize 2 c4WitStore 0 c4WitJson).isSome = true := by decide
  refine ⟨node_hasTransform_ctor_and_deserialize.1 "W",
    (nodeDeserialize 2 c4WitStore 0 c4WitJson).get hs, (Option.some_get hs).symm, ?_⟩
  exact node_hasTransform_ctor_and_deserialize.2 2 c4WitStore 0 c4WitJson _ (Node.ctor "W")
    (Option.some_get hs).symm (by decide) rfl rfl

/-
Round-trip infrastructure (claim C1): forest/list conversions, optMap
assembly lemmas, the Vec3/Transform serialization round trips, and
congruence of the observable view under parent-link changes.
-/

def PForest.toList : PForest → List PTree
  | .nil => []
  | .cons t f => t :: PForest.toList f

theorem ofList_toList : ∀ f : PForest, PForest.ofList (PForest.toList f) = f
  | .nil => rfl
  | .cons t f => by
    simp only [PForest.toList, PForest.ofList]
    rw [ofList_toList f]

theorem encodeF_toList : ∀ f : PForest, encodeF f = (PForest.toList f).map encodePTree
  | .nil => rfl
  | .cons t f => by
    simp only [PForest.toList, encodeF, List.map_cons]
    rw [encodeF_toList f]

theorem encodeF_ofList :
    ∀ ts : List PTree, encodeF (PForest.ofList ts) = ts.map encodePTree
  | [] => rfl
  | t :: ts => by
    simp only [PForest.ofList, encodeF, List.map_cons]
    rw [encodeF_ofList ts]

theorem ht_toList_le :
    ∀ (f : PForest) (t : PTree), t ∈ PForest.toList f → PTree.ht t ≤ PForest.htF f
  | .nil, t, h => absurd h (List.not_mem_nil t)
  | .cons t' f, t, h => by
    cases h with
    | head => exact Nat.le_max_left _ _
    | tail _ h => exact Nat.le_trans (ht_toList_le f t h) (Nat.le_max_right _ _)

theorem htF_ofList_le :
    ∀ (ts : List PTree) (n : Nat),
      (∀ t ∈ ts, PTree.ht t ≤ n) → PForest.htF (PForest.ofList ts) ≤ n
  | [], n, _ => Nat.zero_le n
  | t :: ts, n, h => by
    simp only [PForest.ofList, PForest.htF]
    exact Nat.max_le.mpr ⟨h t (List.mem_cons_self _ _),
      htF_ofList_le ts n fun t' ht' => h t' (List.mem_cons_of_mem _ ht')⟩

theorem allT_node {nm : String} {ac : Bool} {locs : Option (Vec3 × Vec3 × Vec3)}
    {f : PForest} (h : PTree.allT (.node nm ac locs f) = true) :
    locs.isSome = true ∧ PForest.allTF f = true := by
  simp only [PTree.allT, Bool.and_eq_true] at h
  exact h

theorem allTF_toList :
    ∀ (f : PForest), PForest.allTF f = true →
      ∀ t ∈ PForest.toList f, PTree.allT t = true
  | .nil, _, t, h => absurd h (List.not_mem_nil t)
  | .cons t' f, hall, t, h => by
    simp only [PForest.allTF, Bool.and_eq_true] at hall
    cases h with
    | head => exact hall.1
    | tail _ h => exact allTF_toList f hall.2 t h

theorem optMap_eq_map {α β : Type} (f : α → Option β) (g : α → β) :
    ∀ l : List α, (∀ x ∈ l, f x = some (g x)) → optMap f l = some (l.map g) := by
  intro l
  induction l with
  | nil => intro _; rfl
  | cons a l ih =>
    intro h
    simp only [optMap, h a (List.mem_cons_self _ _), List.map_cons,
      ih fun x hx => h x (List.mem_cons_of_mem _ hx)]

theorem optMap_exists_of_forall {α β : Type} (f : α → Option β) (P : β → Prop) :
    ∀ l : List α, (∀ x ∈ l, ∃ y, f x = some y ∧ P y) →
      ∃ ys, optMap f l = some ys ∧ ∀ y ∈ ys, P y := by
  intro l
  induction l with
  | nil => intro _; exact ⟨[], rfl, fun y hy => absurd hy (List.not_mem_nil y)⟩
  | cons a l ih =>
    intro h
    obtain ⟨y, hy, hPy⟩ := h a (List.mem_cons_self _ _)
    obtain ⟨ys, hys, hPs⟩ := ih fun x hx => h x (List.mem_cons_of_mem _ hx)
    refine ⟨y :: ys, ?_, ?_⟩
    · simp only [optMap, hy, hys]
    · intro z hz
      cases hz with
      | head => exact hPy
      | tail _ hz => exact hPs z hz

theorem optMap_comp_map {α β γ : Type} (g : α → β) (f : β → Option γ) :
    ∀ l : List α, optMap f (l.map g) = optMap (fun x => f (g x)) l := by
  intro l
  induction l with
  | nil => rfl
  | cons a l ih => simp only [List.map_cons, optMap, ih]

theorem optMap_mem_rev {α β : Type} (f : α → Option β) :
    ∀ (l : List α) (ys : List β), optMap f l = some ys →
      ∀ y ∈ ys, ∃ a ∈ l, f a = some y := by
  intro l
  induction l with
  | nil =>
    intro ys h y hy
    injection h with h
    subst h
    exact absurd hy (List.not_mem_nil y)
  | cons a l ih =>
    intro ys h y hy
    simp only [optMap] at h
    split at h
    · cases h
    · rename_i b hb
      split at h
      · cases h
      · rename_i ys' hys'
        injection h with h
        subst h
        cases hy with
        | head => exact ⟨a, List.mem_cons_self _ _, hb⟩
        | tail _ hy =>
          obtain ⟨a', ha', hfa'⟩ := ih ys' hys' y hy
          exact ⟨a', List.mem_cons_of_mem _ ha', hfa'⟩

theorem collectFrom_find? (fuel : Nat) (s : Store) (nid : Nat) (ids : List Nat)
    (h : collectFrom fuel s nid = some ids) : ∃ n, s.find? nid = some n := by
  cases fuel with
  | zero => cases h
  | succ fuel =>
    simp only [collectFrom] at h
    split at h
    · cases h
    · rename_i n hn
      exact ⟨n, hn⟩

theorem collectFrom_self_mem (fuel : Nat) (s : Store) (nid : Nat) (ids : List Nat)
    (h : collectFrom fuel s nid = some ids) : nid ∈ ids := by
  cases fuel with
  | zero => cases h
  | succ fuel =>
    simp only [collectFrom] at h
    split at h
    · cases h
    · rename_i n hn
      split at h
      · cases h
      · rename_i css hcs
        injection h with h
        subst h
        exact List.mem_cons_self _ _

/-- The extracted tree of a subtree is no taller than the traversal fuel. -/
theorem extract_ht :
    ∀ (fuel : Nat) (s : Store) (nid : Nat) (t : PTree),
      extract fuel s nid = some t → PTree.ht t ≤ fuel := by
  intro fuel
  induction fuel with
  | zero => intro s nid t h; cases h
  | succ fuel ih =>
    intro s nid t h
    simp only [extract] at h
    split at h
    · cases h
    · rename_i node hn
      split at h
      · cases h
      · rename_i ts hts
        injection h with h
        subst h
        simp only [PTree.ht]
        have hmem : ∀ t' ∈ ts, PTree.ht t' ≤ fuel := by
          intro t' ht'
          obtain ⟨c, _, hc⟩ := optMap_mem_rev _ node.children ts hts t' ht'
          exact ih s c t' hc
        exact Nat.succ_le_succ (htF_ofList_le ts fuel hmem)

theorem Vec3.deserialize_serialize (v : Vec3) :
    Vec3.deserialize v.serialize = some v := rfl

theorem Transform.deserializeComp_encode (t : Transform) (p r sc : Vec3) :
    t.deserializeComp (Json.obj [("position", p.serialize), ("rotation", r.serialize),
        ("scale", sc.serialize)]) =
      some { t with localPosition := p, localRotation := r, localScale := sc, dirty := true } := rfl

/-- The part of a node the traversal and the observable view read: name,
flag, children, Transform locals — everything except the parent link. -/
def Node.tview (n : Node) : String × Bool × List Nat × Option (Vec3 × Vec3 × Vec3) :=
  (n.name, n.active, n.children,
    n.transform?.map fun t => (t.localPosition, t.localRotation, t.localScale))

theorem tview_kids {s s' : Store}
    (h : ∀ m, (s.find? m).map Node.tview = (s'.find? m).map Node.tview) (m : Nat) :
    (s'.find? m).map (·.children) = (s.find? m).map (·.children) := by
  have hm := h m
  cases hs : s.find? m with
  | none =>
    rw [hs] at hm
    cases hs' : s'.find? m with
    | none => rfl
    | some n' => rw [hs'] at hm; cases hm
  | some n =>
    rw [hs] at hm
    cases hs' : s'.find? m with
    | none => rw [hs'] at hm; cases hm
    | some n' =>
      rw [hs'] at hm
      simp only [Option.map_some'] at hm
      injection hm with hm
      simp only [Option.map_some', Node.tview, Prod.mk.injEq] at hm ⊢
      exact congrArg some hm.2.2.1.symm

/-- The observable view ignores the parent link: heaps agreeing on the
`tview` of every node extract identical trees. -/
theorem extract_congr_tview :
    ∀ (fuel : Nat) (s s' : Store),
      (∀ m, (s.find? m).map Node.tview = (s'.find? m).map Node.tview) →
      ∀ nid, extract fuel s nid = extract fuel s' nid := by
  intro fuel
  induction fuel with
  | zero => intro s s' h nid; rfl
  | succ fuel ih =>
    intro s s' h nid
    simp only [extract]
    have hm := h nid
    cases hn : s.find? nid with
    | none =>
      rw [hn] at hm
      cases hn' : s'.find? nid with
      | none => rfl
      | some n' => rw [hn'] at hm; cases hm
    | some node =>
      rw [hn] at hm
      cases hn' : s'.find? nid with
      | none => rw [hn'] at hm; cases hm
      | some node' =>
        rw [hn'] at hm
        simp only [Option.map_some'] at hm
        injection hm with hm
        simp only [Node.tview, Prod.mk.injEq] at hm
        obtain ⟨h1, h2, h3, h4⟩ := hm
        dsimp only
        rw [optMap_congr _ _ node.children fun c _ => ih s s' h c, h3, h1, h2, h4]

theorem optFold_elim {σ α : Type} {f : σ → α → Option σ} {st : σ} {l : List α}
    {res : Option σ} (hload : optFold f st l = res) (Q : σ → List α → Prop)
    (hQ : Q st l)
    (hstep : ∀ st a l', Q st (a :: l') → ∃ st', f st a = some st' ∧ Q st' l') :
    ∃ st', res = some st' ∧ Q st' [] := by
  induction l generalizing st res with
  | nil =>
    exact ⟨st, hload.symm, hQ⟩
  | cons a l ih =>
    obtain ⟨st₁, hf, hQ₁⟩ := hstep st a l hQ
    simp only [optFold, hf] at hload
    exact ih hload hQ₁

theorem optMap_map_out {α β γ : Type} (f : α → Option β) (g : α → Option γ)
    (h : β → γ) :
    ∀ (l : List α) (ys : List β),
      (∀ x ∈ l, ∀ y, f x = some y → g x = some (h y)) →
      optMap f l = some ys → optMap g l = some (ys.map h) := by
  intro l
  induction l with
  | nil =>
    intro ys _ hf
    injection hf with hf
    subst hf
    rfl
  | cons a l ih =>
    intro ys hpt hf
    simp only [optMap] at hf ⊢
    split at hf
    · cases hf
    · rename_i y hy
      split at hf
      · cases hf
      · rename_i ys' hys'
        injection hf with hf
        subst hf
        simp only [hpt a (List.mem_cons_self _ _) y hy,
          ih ys' (fun x hx => hpt x (List.mem_cons_of_mem _ hx)) hys', List.map_cons]

/-- `Node::Serialize` emits exactly the encoding of the node's observable
subtree. -/
theorem nodeSerialize_extract :
    ∀ (fuel : Nat) (s : Store) (nid : Nat) (t : PTree),
      extract fuel s nid = some t →
      nodeSerialize fuel s nid = some (encodePTree t) := by
  intro fuel
  induction fuel with
  | zero => intro s nid t h; cases h
  | succ fuel ih =>
    intro s nid t h
    simp only [extract] at h
    split at h
    · cases h
    · rename_i node hn
      split at h
      · cases h
      · rename_i ts hts
        injection h with h
        subst h
        have hkids : optMap (fun c => nodeSerialize fuel s c) node.children =
            some (ts.map encodePTree) :=
          optMap_map_out _ _ encodePTree node.children ts
            (fun c _ y hy => ih s c y hy) hts
        simp only [nodeSerialize, hn, hkids]
        cases htr : node.transform? with
        | none => simp only [encodePTree, encodeF_ofList, htr, Option.map_none']
        | some tr =>
          simp only [encodePTree, encodeF_ofList, htr, Option.map_some']
          rfl

/-- `Node::Deserialize` applied to the encoding of an all-Transform tree `t`
(of height at most the fuel) on a node that owns a Transform: the load
succeeds and rebuilds exactly `t` below the receiver, and every identifier of
the rebuilt subtree is the receiver or a freshly allocated one. -/
theorem nodeDeserialize_encode :
    ∀ (fuel : Nat) (t : PTree) (s : Store) (nid : Nat) (node : Node),
      s.wf → s.find? nid = some node → node.transform?.isSome = true →
      PTree.allT t = true → PTree.ht t ≤ fuel →
      ∃ s', nodeDeserialize fuel s nid (encodePTree t) = some s' ∧
        s'.wf ∧ s.nextId ≤ s'.nextId ∧
        ∃ ids, collectFrom fuel s' nid = some ids ∧
          (∀ m ∈ ids, m = nid ∨ (s.nextId ≤ m ∧ m < s'.nextId)) ∧
          extract fuel s' nid = some t := by
  intro fuel
  induction fuel with
  | zero =>
    intro t s nid node _ _ _ _ hht
    obtain ⟨nm, ac, locs, fk⟩ := t
    simp only [PTree.ht] at hht
    exact absurd hht (Nat.not_succ_le_zero _)
  | succ fuel ih =>
    intro t s nid node hwf hn hts hallT hht
    obtain ⟨nm, ac, locs, fk⟩ := t
    obtain ⟨hlocs, hallF⟩ := allT_node hallT
    obtain ⟨⟨p, r, sc⟩, hloc⟩ : ∃ x, locs = some x := Option.isSome_iff_exists.mp hlocs
    subst hloc
    obtain ⟨tr, htr⟩ : ∃ x, node.transform? = some x := Option.isSome_iff_exists.mp hts
    simp only [PTree.ht] at hht
    have hhtF : PForest.htF fk ≤ fuel := Nat.le_of_succ_le_succ hht
    have hkidsOK : ∀ t' ∈ PForest.toList fk, PTree.allT t' = true ∧ PTree.ht t' ≤ fuel :=
      fun t' ht' => ⟨allTF_toList fk hallF t' ht',
        Nat.le_trans (ht_toList_le fk t' ht') hhtF⟩
    have hnidlt : nid < s.nextId := Store.find?_lt_nextId s nid node hwf hn
    obtain ⟨X, hload⟩ : ∃ X, nodeDeserialize (fuel + 1) s nid
        (encodePTree (.node nm ac (some (p, r, sc)) fk)) = X := ⟨_, rfl⟩
    have hload₀ := hload
    have e₁ : ∀ (a b c d : Json),
        (Json.obj [("name", a), ("active", b), ("components", c),
          ("children", d)]).getField "name" = some a := fun _ _ _ _ => rfl
    have e₂ : ∀ (a b c d : Json),
        (Json.obj [("name", a), ("active", b), ("components", c),
          ("children", d)]).getField "active" = some b := fun _ _ _ _ => rfl
    have e₃ : ∀ (a b c d : Json),
        (Json.obj [("name", a), ("active", b), ("components", c),
          ("children", d)]).getField "components" = some c := fun _ _ _ _ => rfl
    have e₄ : ∀ (a b c d : Json),
        (Json.obj [("name", a), ("active", b), ("components", c),
          ("children", d)]).getField "children" = some d := fun _ _ _ _ => rfl
    have eT : ∀ (x : Json),
        (Json.obj [("type", Json.str "Transform"), ("data", x)]).getField "type" =
          some (Json.str "Transform") := fun _ => rfl
    have eD : ∀ (x : Json),
        (Json.obj [("type", Json.str "Transform"), ("data", x)]).getField "data" =
          some x := fun _ => rfl
    have eB : ((s.set nid { node with name := nm, active := ac }).find? nid).bind
        (fun x => x.transform?) = some tr := by
      rw [Store.find?_set, if_pos rfl, hn]
      exact htr
    have eN₂ : ∀ (t' : Transform),
        ((s.set nid { node with name := nm, active := ac }).setTransform nid
          t').find? nid =
        some { node with name := nm, active := ac, transform? := some t' } := by
      intro t'
      rw [Store.find?_setTransform, if_pos rfl, Store.find?_set, if_pos rfl, hn]
      rfl
    simp only [encodePTree, nodeDeserialize, hn, e₁, e₂, e₃, e₄, Json.getStr,
      Json.getBool, Json.getArr, Option.some_bind, optFold, eT, reduceIte, eB, eD,
      Transform.deserializeComp_encode, eN₂] at hload
    obtain ⟨σ', hXeq, hQf⟩ := optFold_elim hload
      (fun st rem => ∃ (built : List (Nat × PTree)) (trees₂ : List PTree),
        PForest.toList fk = built.map Prod.snd ++ trees₂ ∧
        rem = trees₂.map encodePTree ∧
        st.wf ∧ s.nextId ≤ st.nextId ∧
        (∀ m, m ≠ nid → m < s.nextId → st.find? m = s.find? m) ∧
        (∃ pn', st.find? nid = some pn' ∧ pn'.name = nm ∧ pn'.active = ac ∧
          pn'.parent = node.parent ∧
          pn'.transform? = some { tr with localPosition := p, localRotation := r, localScale := sc, dirty := true } ∧
          pn'.children = built.map Prod.fst) ∧
        (∀ q ∈ built, ∃ ids, collectFrom fuel st q.1 = some ids ∧
          (∀ m ∈ ids, s.nextId ≤ m ∧ m < st.nextId) ∧
          extract fuel st q.1 = some q.2))
      (by
        refine ⟨[], PForest.toList fk, by simp, (encodeF_toList fk), ?_, ?_, ?_, ?_, ?_⟩
        · exact Store.wf_set _ _ _ (Store.wf_setTransform _ _ _ (Store.wf_set _ _ _ hwf))
        · exact Nat.le_of_eq rfl
        · intro m hm _
          rw [Store.find?_set, if_neg fun hh => hm hh.symm, Store.find?_setTransform,
            if_neg fun hh => hm hh.symm, Store.find?_set, if_neg fun hh => hm hh.symm]
        · refine ⟨{ node with name := nm, active := ac, children := [], transform? := some { tr with localPosition := p, localRotation := r, localScale := sc, dirty := true } }, ?_, rfl, rfl, rfl, rfl, rfl⟩
          rw [Store.find?_set, if_pos rfl, eN₂]
          rfl
        · intro q hq
          exact absurd hq (List.not_mem_nil q))
      (by
        intro st a l' hQc
        obtain ⟨built, trees₂, hsplit, hrem, hw, hle, hfr,
          ⟨pn', hpn', hname, hactive, hparent, htrans, hchild⟩, hInv⟩ := hQc
        cases trees₂ with
        | nil => exact absurd hrem (List.cons_ne_nil _ _)
        | cons t' trees₃ =>
          simp only [List.map_cons] at hrem
          injection hrem with ha hl'
          subst ha
          subst hl'
          obtain ⟨hallT', hht'⟩ := hkidsOK t'
            (by rw [hsplit]; exact List.mem_append_right _ (List.mem_cons_self _ _))
          have hwal : (st.alloc (Node.ctor "Node")).1.wf := Store.wf_alloc st _ hw
          have hfnew : (st.alloc (Node.ctor "Node")).1.find? st.nextId =
            some (Node.ctor "Node") := Store.find?_alloc_new st _ hw
          obtain ⟨st₂, hdes, hw₂, hle₂, ids_c, hcol_c, hbnd_c, hext_c⟩ :=
            ih t' (st.alloc (Node.ctor "Node")).1 st.nextId (Node.ctor "Node")
              hwal hfnew rfl hallT' hht'
          have hdes' : nodeDeserialize fuel { nodes := st.nodes ++ [(st.nextId, Node.ctor "Node")], nextId := st.nextId + 1 } st.nextId (encodePTree t') = some st₂ := hdes
          obtain ⟨hw₂', _, hfrR⟩ :=
            nodeDeserialize_frame fuel _ st.nextId (encodePTree t') st₂ hdes hwal
          have hnidlt' : nid < st.nextId := Nat.lt_of_lt_of_le hnidlt hle
          have hnidne : nid ≠ st.nextId := Nat.ne_of_lt hnidlt'
          have hfind_nid₂ : st₂.find? nid = some pn' := by
            rw [hfrR nid hnidne (Nat.lt_succ_of_lt hnidlt'),
              Store.find?_alloc_old st _ nid hnidne]
            exact hpn'
          have hbuiltlt : ∀ m ∈ built.map Prod.fst, m < st.nextId := by
            intro m hm
            obtain ⟨q, hq, hqe⟩ := List.mem_map.mp hm
            obtain ⟨ids, hcol, hbnd, _⟩ := hInv q hq
            have hself : q.1 ∈ ids := collectFrom_self_mem fuel st q.1 ids hcol
            exact hqe ▸ (hbnd q.1 hself).2
          have hcont : pn'.children.contains st.nextId = false := by
            rw [hchild]
            have hnm : st.nextId ∉ built.map Prod.fst :=
              fun hmem => absurd (hbuiltlt _ hmem) (Nat.lt_irrefl _)
            simpa using hnm
          obtain ⟨cn, hcn⟩ := collectFrom_find? fuel st₂ st.nextId ids_c hcol_c
          have hcn₃ : (st₂.set nid { pn' with children := pn'.children ++ [st.nextId] }).find? st.nextId = some cn := by
            rw [Store.find?_set, if_neg hnidne, hcn]
          refine ⟨(st₂.set nid { pn' with children := pn'.children ++ [st.nextId] }).set st.nextId { cn with parent := some nid }, ?_, ?_⟩
          · beta_reduce
            simp only [Store.alloc, hdes', hfind_nid₂, hcont, Bool.false_eq_true,
              if_false, hcn₃]
          · -- the invariant after one child
            have hagold : ∀ ids : List Nat, (∀ m ∈ ids, s.nextId ≤ m ∧ m < st.nextId) →
                ∀ m ∈ ids,
                ((st₂.set nid { pn' with children := pn'.children ++ [st.nextId] }).set
                  st.nextId { cn with parent := some nid }).find? m = st.find? m := by
              intro ids hbnd m hm
              obtain ⟨hge, hlt⟩ := hbnd m hm
              have hmnid : m ≠ nid := fun hh => absurd (hh ▸ hge) (Nat.not_le_of_lt hnidlt)
              have hmnxt : m ≠ st.nextId := Nat.ne_of_lt hlt
              rw [Store.find?_set, if_neg fun hh => hmnxt hh.symm,
                Store.find?_set, if_neg fun hh => hmnid hh.symm,
                hfrR m hmnxt (Nat.lt_succ_of_lt hlt),
                Store.find?_alloc_old st _ m hmnxt]
            have hnewviews : ∀ m,
                ((st₂.set nid { pn' with children := pn'.children ++ [st.nextId] }).find? m).map Node.tview =
                (((st₂.set nid { pn' with children := pn'.children ++ [st.nextId] }).set st.nextId { cn with parent := some nid }).find? m).map Node.tview := by
              intro m
              by_cases hm : st.nextId = m
              · subst hm
                rw [hcn₃, Store.find?_set, if_pos rfl, hcn₃]
                rfl
              · conv_rhs => rw [Store.find?_set]
                rw [if_neg hm]
            refine ⟨built ++ [(st.nextId, t')], trees₃, ?_, rfl, ?_, ?_, ?_, ?_, ?_⟩
            · rw [hsplit]
              simp
            · exact Store.wf_set _ _ _ (Store.wf_set _ _ _ hw₂')
            · exact Nat.le_trans hle (Nat.le_trans (Nat.le_succ _) hle₂)
            · intro m hm hlt
              have hmnxt : m ≠ st.nextId :=
                Nat.ne_of_lt (Nat.lt_of_lt_of_le hlt hle)
              rw [Store.find?_set, if_neg fun hh => hmnxt hh.symm,
                Store.find?_set, if_neg fun hh => hm hh.symm,
                hfrR m hmnxt (Nat.lt_succ_of_lt (Nat.lt_of_lt_of_le hlt hle)),
                Store.find?_alloc_old st _ m hmnxt]
              exact hfr m hm hlt
            · refine ⟨{ pn' with children := pn'.children ++ [st.nextId] }, ?_, hname, hactive, hparent, htrans, ?_⟩
              · rw [Store.find?_set, if_neg fun hh => hnidne hh.symm,
                  Store.find?_set, if_pos rfl, hfind_nid₂]
                rfl
              · rw [hchild]
                simp
            · intro q hq
              rcases List.mem_append.mp hq with hq | hq
              · obtain ⟨ids, hcol, hbnd, hext⟩ := hInv q hq
                obtain ⟨hcol', hext'⟩ := collect_extract_congr fuel st q.1 ids hcol _
                  (hagold ids hbnd)
                refine ⟨ids, hcol', ?_, hext'.trans hext⟩
                intro m hm
                obtain ⟨hge, hlt⟩ := hbnd m hm
                exact ⟨hge, Nat.lt_of_lt_of_le hlt
                  (Nat.le_trans (Nat.le_succ _) hle₂)⟩
              · have hqe : q = (st.nextId, t') := by simpa using hq
                subst hqe
                have hag₂ : ∀ m ∈ ids_c,
                    (st₂.set nid { pn' with children := pn'.children ++ [st.nextId] }).find? m = st₂.find? m := by
                  intro m hm
                  rcases hbnd_c m hm with hm' | ⟨hge, _⟩
                  · rw [Store.find?_set, if_neg fun hh => hnidne (hh.trans hm')]
                  · have : nid ≠ m := Nat.ne_of_lt (Nat.lt_of_lt_of_le
                      (Nat.lt_succ_of_lt hnidlt') hge)
                    rw [Store.find?_set, if_neg this]
                obtain ⟨hcol₃, hext₃⟩ :=
                  collect_extract_congr fuel st₂ st.nextId ids_c hcol_c _ hag₂
                have hcolF : collectFrom fuel
                    ((st₂.set nid { pn' with children := pn'.children ++ [st.nextId] }).set st.nextId { cn with parent := some nid }) st.nextId = some ids_c := by
                  rw [collectFrom_congr_kids fuel _ _ (tview_kids hnewviews) st.nextId]
                  exact hcol₃
                have hextF : extract fuel
                    ((st₂.set nid { pn' with children := pn'.children ++ [st.nextId] }).set st.nextId { cn with parent := some nid }) st.nextId = some t' := by
                  rw [← extract_congr_tview fuel _ _ hnewviews st.nextId, hext₃]
                  exact hext_c
                refine ⟨ids_c, hcolF, ?_, hextF⟩
                intro m hm
                rcases hbnd_c m hm with hm' | ⟨hge, hlt⟩
                · subst hm'
                  exact ⟨Nat.le_trans hle (Nat.le_refl _), Nat.lt_of_lt_of_le
                    (Nat.lt_succ_self _) hle₂⟩
                · exact ⟨Nat.le_trans hle (Nat.le_trans (Nat.le_succ _) hge), hlt⟩)
    obtain ⟨built, trees₂, hsplit, hrem, hwF, hleF, _,
      ⟨pn', hpn', hname, hactive, hparent, htrans, hchild⟩, hInvF⟩ := hQf
    have htrees₂ : trees₂ = [] := List.map_eq_nil_iff.mp hrem.symm
    subst htrees₂
    have hsplit' : PForest.toList fk = built.map Prod.snd := by simpa using hsplit
    obtain ⟨idss, hoptm, hbnds⟩ :
        ∃ idss, optMap (fun c => collectFrom fuel σ' c) pn'.children = some idss ∧
          ∀ ids ∈ idss, ∀ m ∈ ids, s.nextId ≤ m ∧ m < σ'.nextId := by
      rw [hchild, optMap_comp_map]
      refine optMap_exists_of_forall _
        (fun ids => ∀ m ∈ ids, s.nextId ≤ m ∧ m < σ'.nextId) built ?_
      intro q hq
      obtain ⟨ids, hcol, hbnd, _⟩ := hInvF q hq
      exact ⟨ids, hcol, hbnd⟩
    have hextkids : optMap (fun c => extract fuel σ' c) pn'.children =
        some (built.map Prod.snd) := by
      rw [hchild, optMap_comp_map]
      exact optMap_eq_map _ _ built fun q hq =>
        Exists.elim (hInvF q hq) fun ids h => h.2.2
    refine ⟨σ', hload₀.trans hXeq, hwF, hleF, nid :: idss.flatten, ?_, ?_, ?_⟩
    · simp only [collectFrom, hpn', hoptm]
    · intro m hm
      cases hm with
      | head => exact Or.inl rfl
      | tail _ hm =>
        obtain ⟨ids, hids, hmids⟩ := List.mem_flatten.mp hm
        exact Or.inr (hbnds ids hids m hmids)
    · simp only [extract, hpn', hextkids]
      rw [hname, hactive, htrans, ← hsplit', ofList_toList]
      rfl

theorem toList_ofList : ∀ ts : List PTree, PForest.toList (PForest.ofList ts) = ts
  | [] => rfl
  | t :: ts => by
    simp only [PForest.ofList, PForest.toList]
    rw [toList_ofList ts]

/-- Claim C1: for a scene whose every reachable node owns a Transform (which
`Node::Node` guarantees for every node built through the public API),
`Scene::Deserialize(Scene::Serialize(scene))` succeeds and reproduces an
isomorphic forest: the same root sequence and child sequences, names, active
flags, and Transform local values on every node. -/
theorem scene_serialize_roundtrip :
    ∀ (fuel : Nat) (sc : Scene) (f : PForest),
      sc.store.wf →
      extractScene fuel sc = some f →
      PForest.allTF f = true →
      ∃ j sc', sceneSerialize fuel sc = some j ∧
        sceneDeserialize fuel sc j = some sc' ∧
        extractScene fuel sc' = some f := by
  intro fuel sc f hwf hext hall
  unfold extractScene at hext
  cases hts : optMap (fun r => extract fuel sc.store r) sc.rootNodes with
  | none => rw [hts] at hext; cases hext
  | some ts =>
    rw [hts] at hext
    simp only [Option.map_some'] at hext
    injection hext with hext
    subst hext
    have hallts : ∀ t ∈ ts, PTree.allT t = true := by
      intro t ht
      exact allTF_toList _ hall t (by rw [toList_ofList]; exact ht)
    have hhts : ∀ t ∈ ts, PTree.ht t ≤ fuel := by
      intro t ht
      obtain ⟨rid, _, hr⟩ := optMap_mem_rev _ sc.rootNodes ts hts t ht
      exact extract_ht fuel sc.store rid t hr
    have hser : sceneSerialize fuel sc =
        some (.obj [("rootNodes", .arr (ts.map encodePTree))]) := by
      unfold sceneSerialize
      rw [optMap_map_out _ _ encodePTree sc.rootNodes ts
        (fun rid _ y hy => nodeSerialize_extract fuel sc.store rid y hy) hts]
    have eR : ∀ (x : Json), (Json.obj [("rootNodes", x)]).getField "rootNodes" =
        some x := fun _ => rfl
    obtain ⟨X, hload⟩ : ∃ X, sceneDeserialize fuel sc
        (Json.obj [("rootNodes", Json.arr (ts.map encodePTree))]) = X := ⟨_, rfl⟩
    have hload₀ := hload
    simp only [sceneDeserialize, eR, Json.getArr, Option.some_bind] at hload
    obtain ⟨σ', hXeq, hQf⟩ := optFold_elim hload
      (fun acc rem => ∃ (done : List (Nat × PTree)) (ts₂ : List PTree),
        ts = done.map Prod.snd ++ ts₂ ∧
        rem = ts₂.map encodePTree ∧
        acc.store.wf ∧ sc.store.nextId ≤ acc.store.nextId ∧
        acc.rootNodes = done.map Prod.fst ∧
        (∀ q ∈ done, ∃ ids, collectFrom fuel acc.store q.1 = some ids ∧
          (∀ m ∈ ids, m < acc.store.nextId) ∧
          extract fuel acc.store q.1 = some q.2))
      (by
        refine ⟨[], ts, by simp, rfl, hwf, Nat.le_refl _, rfl, ?_⟩
        intro q hq
        exact absurd hq (List.not_mem_nil q))
      (by
        intro acc a l' hQc
        obtain ⟨done, ts₂, hsplit, hrem, hw, hle, hroots, hInv⟩ := hQc
        cases ts₂ with
        | nil => exact absurd hrem (List.cons_ne_nil _ _)
        | cons t' ts₃ =>
          simp only [List.map_cons] at hrem
          injection hrem with ha hl'
          subst ha
          subst hl'
          have ht'mem : t' ∈ ts := by
            rw [hsplit]
            exact List.mem_append_right _ (List.mem_cons_self _ _)
          have hwal : (acc.store.alloc (Node.ctor "Node")).1.wf :=
            Store.wf_alloc acc.store _ hw
          have hfnew : (acc.store.alloc (Node.ctor "Node")).1.find? acc.store.nextId =
            some (Node.ctor "Node") := Store.find?_alloc_new acc.store _ hw
          obtain ⟨st₂, hdes, hw₂, hle₂, ids_c, hcol_c, hbnd_c, hext_c⟩ :=
            nodeDeserialize_encode fuel t' (acc.store.alloc (Node.ctor "Node")).1
              acc.store.nextId (Node.ctor "Node") hwal hfnew rfl
              (hallts t' ht'mem) (hhts t' ht'mem)
          have hdes' : nodeDeserialize fuel { nodes := acc.store.nodes ++ [(acc.store.nextId, Node.ctor "Node")], nextId := acc.store.nextId + 1 } acc.store.nextId (encodePTree t') = some st₂ := hdes
          obtain ⟨_, _, hfrR⟩ := nodeDeserialize_frame fuel _ acc.store.nextId
            (encodePTree t') st₂ hdes hwal
          refine ⟨{ store := st₂, rootNodes := acc.rootNodes ++ [acc.store.nextId] },
            ?_, ?_⟩
          · beta_reduce
            simp only [Store.alloc, hdes']
          · refine ⟨done ++ [(acc.store.nextId, t')], ts₃, ?_, rfl, hw₂, ?_, ?_, ?_⟩
            · rw [hsplit]
              simp
            · exact Nat.le_trans hle (Nat.le_trans (Nat.le_succ _) hle₂)
            · rw [hroots]
              simp
            · intro q hq
              rcases List.mem_append.mp hq with hq | hq
              · obtain ⟨ids, hcol, hbnd, hext'⟩ := hInv q hq
                have hag : ∀ m ∈ ids, st₂.find? m = acc.store.find? m := by
                  intro m hm
                  have hlt := hbnd m hm
                  have hmne : m ≠ acc.store.nextId := Nat.ne_of_lt hlt
                  rw [hfrR m hmne (Nat.lt_succ_of_lt hlt),
                    Store.find?_alloc_old acc.store _ m hmne]
                obtain ⟨hcol', hextEq⟩ :=
                  collect_extract_congr fuel acc.store q.1 ids hcol st₂ hag
                refine ⟨ids, hcol', ?_, hextEq.trans hext'⟩
                intro m hm
                exact Nat.lt_of_lt_of_le (hbnd m hm)
                  (Nat.le_trans (Nat.le_succ _) hle₂)
              · have hqe : q = (acc.store.nextId, t') := by simpa using hq
                subst hqe
                refine ⟨ids_c, hcol_c, ?_, hext_c⟩
                intro m hm
                rcases hbnd_c m hm with hm' | ⟨_, hlt⟩
                · subst hm'
                  exact Nat.lt_of_lt_of_le (Nat.lt_succ_self _) hle₂
                · exact hlt)
    obtain ⟨done, ts₂, hsplit, hrem, hwF, _, hrootsF, hInvF⟩ := hQf
    have hts₂ : ts₂ = [] := List.map_eq_nil_iff.mp hrem.symm
    subst hts₂
    have hsplit' : ts = done.map Prod.snd := by simpa using hsplit
    refine ⟨_, σ', hser, hload₀.trans hXeq, ?_⟩
    unfold extractScene
    rw [hrootsF, optMap_comp_map,
      optMap_eq_map _ _ done
        (fun q hq => Exists.elim (hInvF q hq) fun ids h => h.2.2),
      ← hsplit']
    rfl

/-- A two-node scene (root `R` with child `C`) instantiating the round trip. -/
def c1WitStore : Store :=
  { nodes := [(0, { Node.ctor "R" with children := [1] }),
              (1, { Node.ctor "C" with parent := some 0 })],
    nextId := 2 }

def c1WitScene : Scene := { store := c1WitStore, rootNodes := [0] }

/-- The observable forest of `c1WitScene`. -/
def c1WitForest : PForest :=
  PForest.cons
    (PTree.node "R" true (some (⟨0, 0, 0⟩, ⟨0, 0, 0⟩, ⟨1, 1, 1⟩))
      (PForest.cons
        (PTree.node "C" true (some (⟨0, 0, 0⟩, ⟨0, 0, 0⟩, ⟨1, 1, 1⟩)) PForest.nil)
        PForest.nil))
    PForest.nil

theorem scene_serialize_roundtrip_witness :
    c1WitScene.store.wf ∧ extractScene 3 c1WitScene = some c1WitForest ∧
    PForest.allTF c1WitForest = true ∧
    ∃ j sc', sceneSerialize 3 c1WitScene = some j ∧
      sceneDeserialize 3 c1WitScene j = some sc' ∧
      extractScene 3 sc' = some c1WitForest :=
  ⟨by decide, by rfl, by rfl,
    scene_serialize_roundtrip 3 c1WitScene c1WitForest (by decide) (by rfl) (by rfl)⟩

end Composable
